import Mathlib

/-!
Verification of the graph-rs library: a shallow embedding of the
identity-keyed `Graph`, the content-keyed `GraphMap` facade, and the
traversal algorithms (`bfs`, `connected_components`, `dijkstra`),
together with proofs of the specified properties.

Rust `HashMap`s are embedded as association lists with first-match
lookup; `HashSet`s as lists with guarded insertion.  The generational
arena is embedded as an ever-increasing `Nat` counter plus an
association list of live slots: fresh identities are never reused,
which matches the (slot, generation) scheme of `generational_arena`
(a freshly issued index is distinct from every previously issued one).

Operations that can panic in Rust (`unwrap` on a missing entry, map
indexing with a missing key) return a `Res` value whose `panicked`
constructor marks the abort; `notFound` marks a normal `None` return
of an `Option`-valued Rust function, and `fuelOut` marks exhaustion of
the explicit fuel that replaces Rust's unbounded loops (the theorems
show the chosen fuel suffices, or are conditional on an `ok` result).
-/

namespace GraphRs

/-- Outcome of an embedded operation: normal value, Rust `None`,
Rust panic, or exhaustion of loop fuel. -/
inductive Res (α : Type) where
  | ok (a : α)
  | notFound
  | panicked
  | fuelOut
deriving DecidableEq, Repr

/-- Association-list lookup, first match wins (embeds `HashMap::get`). -/
def alookup {K A : Type} [DecidableEq K] : List (K × A) → K → Option A
  | [], _ => none
  | (k', a) :: t, k => if k' = k then some a else alookup t k

/-- Association-list insert: replaces the value at an existing key in
place, appends a new key at the end (embeds `HashMap::insert`;
iteration order of a Rust `HashMap` is arbitrary, the embedding fixes
insertion order). -/
def ainsert {K A : Type} [DecidableEq K] : List (K × A) → K → A → List (K × A)
  | [], k, a => [(k, a)]
  | (k', a') :: t, k, a => if k' = k then (k, a) :: t else (k', a') :: ainsert t k a

/-- Association-list erase of every entry at a key (embeds `HashMap::remove`). -/
def aerase {K A : Type} [DecidableEq K] : List (K × A) → K → List (K × A)
  | [], _ => []
  | (k', a) :: t, k => if k' = k then aerase t k else (k', a) :: aerase t k

/-- Entry-or-default: embeds `HashMap::entry(k).or_default()` for set-valued
maps (inserts an empty set if the key is absent, else leaves the map alone). -/
def aentryDefault {K : Type} [DecidableEq K] (m : List (K × List K)) (k : K) :
    List (K × List K) :=
  match alookup m k with
  | some _ => m
  | none => m ++ [(k, [])]

/-- Update the set stored at a key that is known to be present
(embeds `get_mut(&k).unwrap()` followed by a set mutation); returns
`none` when the key is absent, which models the `unwrap` panic. -/
def aupdateSet {K : Type} [DecidableEq K] (m : List (K × List K)) (k : K)
    (f : List K → List K) : Option (List (K × List K)) :=
  match alookup m k with
  | none => none
  | some s => some (ainsert m k (f s))

/-- Guarded set insertion (embeds `HashSet::insert`): appends the
element when absent. -/
def sinsert {K : Type} [DecidableEq K] (s : List K) (x : K) : List K :=
  if x ∈ s then s else s ++ [x]

/-- Set erase (embeds `HashSet::remove`): removes every occurrence. -/
def serase {K : Type} [DecidableEq K] : List K → K → List K
  | [], _ => []
  | y :: t, x => if y = x then serase t x else y :: serase t x

/-- Vertex identities: `generational_arena::Index`, embedded as a `Nat`
issued by an ever-increasing counter. -/
abbrev VertexId := Nat

/-- Edge identities: ordered pairs of vertex identities. -/
abbrev EdgeId := VertexId × VertexId

/-- The identity-keyed graph of `src/lib.rs`: an arena of vertex
payloads, the two adjacency indexes, and the edge-payload map. -/
structure Graph (V E : Type) where
  nextId : Nat
  arena : List (Nat × V)
  inbound : List (VertexId × List VertexId)
  outbound : List (VertexId × List VertexId)
  edges : List (EdgeId × E)
deriving DecidableEq, Repr

namespace Graph

/-- Embeds `Graph::new`. -/
def new (V E : Type) : Graph V E :=
  { nextId := 0, arena := [], inbound := [], outbound := [], edges := [] }

/-- Embeds `Graph::add_vertex`: inserts the payload into the arena at a
fresh identity and creates empty adjacency entries for it. -/
def add_vertex {V E : Type} (g : Graph V E) (v : V) : VertexId × Graph V E :=
  let id := g.nextId
  (id, { g with
    nextId := g.nextId + 1
    arena := ainsert g.arena id v
    inbound := aentryDefault g.inbound id
    outbound := aentryDefault g.outbound id })

/-- Embeds `Graph::get_vertex`. -/
def get_vertex {V E : Type} (g : Graph V E) (id : VertexId) : Option V :=
  alookup g.arena id

/-- Embeds `Graph::add_edge`: inserts or overwrites the edge payload and
records the pair in both adjacency indexes. -/
def add_edge {V E : Type} (g : Graph V E) (e : EdgeId) (w : E) : Graph V E :=
  let (f, t) := e
  { g with
    edges := ainsert g.edges e w
    outbound := ainsert (aentryDefault g.outbound f)
      f (sinsert ((alookup (aentryDefault g.outbound f) f).getD []) t)
    inbound := ainsert (aentryDefault g.inbound t)
      t (sinsert ((alookup (aentryDefault g.inbound t) t).getD []) f) }

/-- Embeds `Graph::get_edge`. -/
def get_edge {V E : Type} (g : Graph V E) (e : EdgeId) : Option E :=
  alookup g.edges e

/-- First loop of `Graph::remove_vertex`: for every outbound neighbor
`to` of the removed vertex, delete the edge `(from, to)` and remove
`from` from `inbound[to]` (an `unwrap` panic, modelled by `none`,
occurs when `to` has no inbound entry). -/
def removeOutLoop {E : Type} (f : VertexId) :
    List VertexId → List (EdgeId × E) → List (VertexId × List VertexId) →
    Option (List (EdgeId × E) × List (VertexId × List VertexId))
  | [], ed, inb => some (ed, inb)
  | t :: rest, ed, inb =>
    match aupdateSet inb t (fun s => serase s f) with
    | none => none
    | some inb' => removeOutLoop f rest (aerase ed (f, t)) inb'

/-- Second loop of `Graph::remove_vertex`: for every inbound neighbor
`from` of the removed vertex, delete the edge `(from, to)`. -/
def removeInLoop {E : Type} (t : VertexId) :
    List VertexId → List (EdgeId × E) → List (EdgeId × E)
  | [], ed => ed
  | f :: rest, ed => removeInLoop t rest (aerase ed (f, t))

/-- Embeds `Graph::remove_vertex`: removes the arena slot, runs the two
edge-deletion loops, and drops the vertex's own adjacency entries.
`panicked` models the `self.outbound[&from]` / `self.inbound[&to]`
index panics and the inner `unwrap` panic. -/
def remove_vertex {V E : Type} (g : Graph V E) (v : VertexId) : Res (Graph V E) :=
  let ar := aerase g.arena v
  match alookup g.outbound v with
  | none => .panicked
  | some outs =>
    match removeOutLoop v outs g.edges g.inbound with
    | none => .panicked
    | some (ed1, inb1) =>
      match alookup inb1 v with
      | none => .panicked
      | some ins =>
        let ed2 := removeInLoop v ins ed1
        .ok { g with
          arena := ar
          edges := ed2
          inbound := aerase inb1 v
          outbound := aerase g.outbound v }

/-- Embeds `Graph::remove_edge`: deletes the edge payload and removes the
pair from both adjacency sets; `panicked` models the two `unwrap`s on
missing adjacency entries. -/
def remove_edge {V E : Type} (g : Graph V E) (e : EdgeId) : Res (Graph V E) :=
  let (f, t) := e
  match aupdateSet g.outbound f (fun s => serase s t) with
  | none => .panicked
  | some ob =>
    match aupdateSet g.inbound t (fun s => serase s f) with
    | none => .panicked
    | some inb =>
      .ok { g with edges := aerase g.edges e, outbound := ob, inbound := inb }

/-- Inner mapping of `Graph::adj_out`: pairs each outbound neighbor with
the edge payload, `none` signalling the `unwrap` panic on a missing edge. -/
def adjPairs {E : Type} (lk : VertexId → Option E) : List VertexId →
    Option (List (VertexId × E))
  | [] => some []
  | t :: rest =>
    match lk t with
    | none => none
    | some e =>
      match adjPairs lk rest with
      | none => none
      | some l => some ((t, e) :: l)

/-- Embeds `Graph::adj_out`: `notFound` when the vertex has no outbound
entry (Rust returns `None`), `panicked` when an edge lookup `unwrap` fails. -/
def adj_out {V E : Type} (g : Graph V E) (v : VertexId) : Res (List (VertexId × E)) :=
  match alookup g.outbound v with
  | none => .notFound
  | some s =>
    match adjPairs (fun t => alookup g.edges (v, t)) s with
    | none => .panicked
    | some l => .ok l

/-- Embeds `Graph::adj_in`. -/
def adj_in {V E : Type} (g : Graph V E) (v : VertexId) : Res (List (VertexId × E)) :=
  match alookup g.inbound v with
  | none => .notFound
  | some s =>
    match adjPairs (fun t => alookup g.edges (t, v)) s with
    | none => .panicked
    | some l => .ok l

/-- Embeds `Graph::indegree`: 0 when the vertex has no inbound entry. -/
def indegree {V E : Type} (g : Graph V E) (v : VertexId) : Nat :=
  match alookup g.inbound v with
  | some s => s.length
  | none => 0

/-- Embeds `Graph::outdegree`: 0 when the vertex has no outbound entry. -/
def outdegree {V E : Type} (g : Graph V E) (v : VertexId) : Nat :=
  match alookup g.outbound v with
  | some s => s.length
  | none => 0

/-- Embeds `Graph::vertex_count` (`arena.len()`). -/
def vertex_count {V E : Type} (g : Graph V E) : Nat :=
  g.arena.length

/-- Embeds `Graph::edge_count`. -/
def edge_count {V E : Type} (g : Graph V E) : Nat :=
  g.edges.length

end Graph

/-- The content-keyed facade `GraphMap` of `src/lib.rs`: the underlying
graph plus the payload-to-identity index. -/
structure GraphMap (V E : Type) where
  graph : Graph V E
  map : List (V × VertexId)
deriving DecidableEq, Repr

namespace GraphMap

/-- Embeds `GraphMap::new`. -/
def new (V E : Type) : GraphMap V E :=
  { graph := Graph.new V E, map := [] }

/-- Embeds `GraphMap::add_or_get_vertex`: returns the existing identity
for the payload, or inserts it into both the graph and the index. -/
def add_or_get_vertex {V E : Type} [DecidableEq V] (g : GraphMap V E) (v : V) :
    VertexId × GraphMap V E :=
  match alookup g.map v with
  | some id => (id, g)
  | none =>
    let (id, gr) := g.graph.add_vertex v
    (id, { graph := gr, map := ainsert g.map v id })

/-- Embeds `GraphMap::add_vertex`: a no-op when the payload is already
indexed. -/
def add_vertex {V E : Type} [DecidableEq V] (g : GraphMap V E) (v : V) :
    GraphMap V E :=
  match alookup g.map v with
  | some _ => g
  | none =>
    let (id, gr) := g.graph.add_vertex v
    { graph := gr, map := ainsert g.map v id }

/-- Embeds `GraphMap::add_edge`: resolves or creates both endpoints,
then delegates. -/
def add_edge {V E : Type} [DecidableEq V] (g : GraphMap V E) (e : V × V) (w : E) :
    GraphMap V E :=
  let (f, t) := e
  let (fid, g1) := g.add_or_get_vertex f
  let (tid, g2) := g1.add_or_get_vertex t
  { g2 with graph := g2.graph.add_edge (fid, tid) w }

/-- Embeds `GraphMap::get_edge`: `none` when either payload is unknown. -/
def get_edge {V E : Type} [DecidableEq V] (g : GraphMap V E) (e : V × V) : Option E :=
  match alookup g.map e.1 with
  | none => none
  | some f =>
    match alookup g.map e.2 with
    | none => none
    | some t => g.graph.get_edge (f, t)

/-- Embeds `GraphMap::contains_edge`. -/
def contains_edge {V E : Type} [DecidableEq V] (g : GraphMap V E) (e : V × V) : Bool :=
  !(g.get_edge e).isNone

/-- Embeds `GraphMap::remove_vertex`: false when the payload is unknown,
otherwise drops the index entry and delegates (which may panic). -/
def remove_vertex {V E : Type} [DecidableEq V] (g : GraphMap V E) (v : V) :
    Res (Bool × GraphMap V E) :=
  match alookup g.map v with
  | none => .ok (false, g)
  | some id =>
    match (Graph.remove_vertex { g with map := aerase g.map v }.graph id : Res (Graph V E)) with
    | .ok gr => .ok (true, { graph := gr, map := aerase g.map v })
    | _ => .panicked

/-- Embeds `GraphMap::remove_edge`: false when either payload is unknown. -/
def remove_edge {V E : Type} [DecidableEq V] (g : GraphMap V E) (e : V × V) :
    Res (Bool × GraphMap V E) :=
  match alookup g.map e.1 with
  | none => .ok (false, g)
  | some f =>
    match alookup g.map e.2 with
    | none => .ok (false, g)
    | some t =>
      match g.graph.remove_edge (f, t) with
      | .ok gr => .ok (true, { g with graph := gr })
      | _ => .panicked

/-- Maps identity/payload pairs back to payloads, `none` signalling the
`get_vertex(id).unwrap()` panic. -/
def payloadPairs {V E : Type} (g : Graph V E) : List (VertexId × E) →
    Option (List (V × E))
  | [] => some []
  | (id, e) :: rest =>
    match g.get_vertex id with
    | none => none
    | some p =>
      match payloadPairs g rest with
      | none => none
      | some l => some ((p, e) :: l)

/-- Embeds `GraphMap::adj_out`: resolves the payload, delegates, and maps
identities back to payloads. -/
def adj_out {V E : Type} [DecidableEq V] (g : GraphMap V E) (v : V) :
    Res (List (V × E)) :=
  match alookup g.map v with
  | none => .notFound
  | some id =>
    match g.graph.adj_out id with
    | .ok l =>
      match payloadPairs g.graph l with
      | none => .panicked
      | some l' => .ok l'
    | .notFound => .notFound
    | _ => .panicked

/-- Embeds `GraphMap::adj_in`. -/
def adj_in {V E : Type} [DecidableEq V] (g : GraphMap V E) (v : V) :
    Res (List (V × E)) :=
  match alookup g.map v with
  | none => .notFound
  | some id =>
    match g.graph.adj_in id with
    | .ok l =>
      match payloadPairs g.graph l with
      | none => .panicked
      | some l' => .ok l'
    | .notFound => .notFound
    | _ => .panicked

/-- Embeds `GraphMap::indegree`: `self.map[&vertex]` panics on an
unknown payload. -/
def indegree {V E : Type} [DecidableEq V] (g : GraphMap V E) (v : V) : Res Nat :=
  match alookup g.map v with
  | none => .panicked
  | some id => .ok (g.graph.indegree id)

/-- Embeds `GraphMap::outdegree`. -/
def outdegree {V E : Type} [DecidableEq V] (g : GraphMap V E) (v : V) : Res Nat :=
  match alookup g.map v with
  | none => .panicked
  | some id => .ok (g.graph.outdegree id)

/-- Embeds `GraphMap::vertex_count`. -/
def vertex_count {V E : Type} (g : GraphMap V E) : Nat :=
  g.graph.vertex_count

/-- Embeds `GraphMap::edge_count`. -/
def edge_count {V E : Type} (g : GraphMap V E) : Nat :=
  g.graph.edge_count

/-- Embeds `GraphMap::vertices` (the content-index keys, in the
embedding's fixed iteration order). -/
def vertices {V E : Type} (g : GraphMap V E) : List V :=
  g.map.map Prod.fst

end GraphMap

namespace GraphMap

/-- Inner loop of `GraphMap::bfs`: for each adjacent `(v, _)` pair, if
`v` is not yet visited, mark it visited and push it on the queue. -/
def enqueueAll {V E : Type} [DecidableEq V] :
    List (V × E) → List V → List V → List V × List V
  | [], vis, q => (vis, q)
  | (v, _) :: rest, vis, q =>
    if v ∈ vis then enqueueAll rest vis q
    else enqueueAll rest (vis ++ [v]) (q ++ [v])

/-- Main loop of `GraphMap::bfs`, with explicit fuel: pop the front of
the queue, record it, and enqueue its unvisited outbound neighbors.
The `adj_out(current).unwrap()` panic is propagated as `panicked`. -/
def bfsAux {V E : Type} [DecidableEq V] (g : GraphMap V E) :
    Nat → List V → List V → List V → Res (List V)
  | _, [], _, nodes => .ok nodes
  | 0, _ :: _, _, _ => .fuelOut
  | fuel + 1, cur :: rest, vis, nodes =>
    match g.adj_out cur with
    | .ok l =>
      let (vis', q') := enqueueAll l vis rest
      bfsAux g fuel q' vis' (nodes ++ [cur])
    | _ => .panicked

/-- Embeds `GraphMap::bfs`: the start payload is enqueued and marked
visited, then the loop runs; the fuel (one more than the number of
vertices) is proven sufficient below. -/
def bfs {V E : Type} [DecidableEq V] (g : GraphMap V E) (start : V) : Res (List V) :=
  bfsAux g (g.map.length + 1) [start] [start] []

/-- Component-building loop of `GraphMap::connected_components`: for
each BFS-visited node, mark it visited, add it to the component graph,
and add all its outbound edges (implicitly creating their targets). -/
def ccBuild {V E : Type} [DecidableEq V] (g : GraphMap V E) :
    List V → List V → GraphMap V E → Res (List V × GraphMap V E)
  | [], vis, acc => .ok (vis, acc)
  | node :: rest, vis, acc =>
    let vis' := sinsert vis node
    let acc1 := acc.add_vertex node
    match g.adj_out node with
    | .ok l =>
      ccBuild g rest vis' (l.foldl (fun a p => a.add_edge (node, p.1) p.2) acc1)
    | _ => .panicked

/-- Outer loop of `GraphMap::connected_components`: iterate the vertex
list, seeding a BFS at every vertex not yet visited. -/
def ccLoop {V E : Type} [DecidableEq V] (g : GraphMap V E) :
    List V → List V → List (GraphMap V E) → Res (List (GraphMap V E))
  | [], _, comps => .ok comps
  | v :: rest, vis, comps =>
    if v ∈ vis then ccLoop g rest vis comps
    else
      match g.bfs v with
      | .ok comp =>
        match ccBuild g comp vis (GraphMap.new V E) with
        | .ok (vis', cg) => ccLoop g rest vis' (comps ++ [cg])
        | _ => .panicked
      | .fuelOut => .fuelOut
      | _ => .panicked

/-- Embeds `GraphMap::connected_components`. -/
def connected_components {V E : Type} [DecidableEq V] (g : GraphMap V E) :
    Res (List (GraphMap V E)) :=
  ccLoop g g.vertices [] []

/-- Lexicographic minimum of two `(cost, node)` pairs, matching the
`Reverse`-wrapped `BinaryHeap` ordering of the Rust dijkstra. -/
def pairMin (a b : Nat × Nat) : Nat × Nat :=
  if a.1 < b.1 then a
  else if b.1 < a.1 then b
  else if a.2 ≤ b.2 then a else b

/-- Least `(cost, node)` pair of a list, or `none` when empty. -/
def listMinPair : List (Nat × Nat) → Option (Nat × Nat)
  | [] => none
  | x :: t =>
    match listMinPair t with
    | none => some x
    | some m => some (pairMin x m)

/-- Remove the first occurrence of an element. -/
def removeOnce {α : Type} [DecidableEq α] : List α → α → List α
  | [], _ => []
  | x :: t, a => if x = a then t else x :: removeOnce t a

/-- Embeds `BinaryHeap::pop` on `Reverse((cost, node))` entries: removes
and returns the lexicographically least pair. -/
def heapPop (q : List (Nat × Nat)) : Option ((Nat × Nat) × List (Nat × Nat)) :=
  match listMinPair q with
  | none => none
  | some m => some (m, removeOnce q m)

/-- Relaxation loop of `GraphMap::dijkstra`: for each inbound neighbor
`(prev, cost)` of `node`, update `dist`/`next`/`queue` when the new
distance improves; the `dist[&node]` index panic is `panicked`. -/
def relaxAll (node : Nat) :
    List (Nat × Nat) → List (Nat × Nat) → List (Nat × Nat) → List (Nat × Nat) →
    Res (List (Nat × Nat) × List (Nat × Nat) × List (Nat × Nat))
  | [], q, dist, nxt => .ok (q, dist, nxt)
  | (prev, cost) :: rest, q, dist, nxt =>
    match alookup dist prev with
    | none =>
      match alookup dist node with
      | none => .panicked
      | some dn =>
        relaxAll node rest (q ++ [(dn + cost, prev)])
          (ainsert dist prev (dn + cost)) (ainsert nxt prev node)
    | some dp =>
      match alookup dist node with
      | none => .panicked
      | some dn =>
        if dn + cost < dp then
          relaxAll node rest (q ++ [(dn + cost, prev)])
            (ainsert dist prev (dn + cost)) (ainsert nxt prev node)
        else relaxAll node rest q dist nxt

/-- Main loop of `GraphMap::dijkstra`, with explicit fuel: pop the least
`(cost, node)` pair and relax all inbound edges of `node`. -/
def dijkstraAux (g : GraphMap Nat Nat) :
    Nat → List (Nat × Nat) → List (Nat × Nat) → List (Nat × Nat) →
    Res (List (Nat × Nat) × List (Nat × Nat))
  | _, [], dist, nxt => .ok (dist, nxt)
  | 0, _ :: _, _, _ => .fuelOut
  | fuel + 1, x :: t, dist, nxt =>
    match heapPop (x :: t) with
    | none => .panicked
    | some ((_, node), q') =>
      match g.adj_in node with
      | .ok l =>
        match relaxAll node l q' dist nxt with
        | .ok (q2, dist2, nxt2) => dijkstraAux g fuel q2 dist2 nxt2
        | _ => .panicked
      | .fuelOut => .fuelOut
      | _ => .panicked

/-- Path reconstruction of `GraphMap::dijkstra`: follow `next` pointers
from `start` until `end` is reached; the `next[&curr]` index panic is
`panicked`, and a cycle in the pointer map exhausts the fuel. -/
def buildPath (nxt : List (Nat × Nat)) : Nat → Nat → Nat → Res (List Nat)
  | 0, _, _ => .fuelOut
  | f + 1, cur, dest =>
    if cur = dest then .ok [dest]
    else
      match alookup nxt cur with
      | none => .panicked
      | some n =>
        match buildPath nxt f n dest with
        | .ok p => .ok (cur :: p)
        | r => r

/-- Embeds `GraphMap::dijkstra` (on `GraphMap<u32, u32>`): runs the
backward search from `dest`, then reconstructs the forward path. -/
def dijkstra (g : GraphMap Nat Nat) (s : Nat) (dest : Nat) :
    Res (Option (List Nat × Nat)) :=
  let fuel := (g.map.length + 1) * (g.graph.edges.length + 1) + 1
  match dijkstraAux g fuel [(0, dest)] [(dest, 0)] [] with
  | .ok (dist, nxt) =>
    match alookup dist s with
    | none => .ok none
    | some d =>
      match buildPath nxt (g.map.length + 1) s dest with
      | .ok p => .ok (some (p, d))
      | .fuelOut => .fuelOut
      | _ => .panicked
  | .fuelOut => .fuelOut
  | _ => .panicked

end GraphMap

/-- Payload-level edge relation of a `GraphMap`: there is an edge from
`a` to `b` exactly when `get_edge((a, b))` is present. -/
def edgeRel {V E : Type} [DecidableEq V] (g : GraphMap V E) (a b : V) : Prop :=
  (g.get_edge (a, b)).isSome = true

/-- Payload-level reachability along outbound edges. -/
def Reach {V E : Type} [DecidableEq V] (g : GraphMap V E) (a b : V) : Prop :=
  Relation.ReflTransGen (edgeRel g) a b

/-- Forward adjacency invariant: every edge `(u, v)` is recorded in
`outbound[u]` and `inbound[v]`. -/
def InvA {V E : Type} (g : Graph V E) : Prop :=
  ∀ p ∈ g.edges, p.1.2 ∈ (alookup g.outbound p.1.1).getD [] ∧
    p.1.1 ∈ (alookup g.inbound p.1.2).getD []

/-- Outbound converse invariant: every pair in an outbound set has an
entry in the edge mapping. -/
def InvB {V E : Type} (g : Graph V E) : Prop :=
  ∀ p ∈ g.outbound, ∀ v ∈ p.2, (alookup g.edges (p.1, v)).isSome = true

/-- Inbound converse invariant: every pair in an inbound set has an
entry in the edge mapping. -/
def InvC {V E : Type} (g : Graph V E) : Prop :=
  ∀ p ∈ g.inbound, ∀ u ∈ p.2, (alookup g.edges (u, p.1)).isSome = true

/-- Every live vertex has entries (possibly empty) in both adjacency maps. -/
def InvD {V E : Type} (g : Graph V E) : Prop :=
  ∀ p ∈ g.arena, (alookup g.outbound p.1).isSome = true ∧
    (alookup g.inbound p.1).isSome = true

/-- The full adjacency invariant of the identity-keyed graph, as the
spec states it. -/
def GWF {V E : Type} (g : Graph V E) : Prop :=
  InvA g ∧ InvB g ∧ InvC g ∧ InvD g

/-- Well-formedness of a content-keyed graph state: the content index
and the arena are mutually inverse, the adjacency invariant holds,
edge endpoints are live, and every indexed vertex has adjacency entries. -/
def WFM {V E : Type} [DecidableEq V] (g : GraphMap V E) : Prop :=
  (∀ p ∈ g.map, alookup g.graph.arena p.2 = some p.1) ∧
  (∀ p ∈ g.graph.arena, alookup g.map p.2 = some p.1) ∧
  InvA g.graph ∧ InvB g.graph ∧
  (∀ p ∈ g.graph.edges, (alookup g.graph.arena p.1.1).isSome = true ∧
    (alookup g.graph.arena p.1.2).isSome = true) ∧
  (∀ p ∈ g.map, (alookup g.graph.outbound p.2).isSome = true ∧
    (alookup g.graph.inbound p.2).isSome = true)

instance {V E : Type} (g : Graph V E) : Decidable (InvA g) := by
  unfold InvA; exact inferInstance

instance {V E : Type} [DecidableEq E] (g : Graph V E) : Decidable (InvB g) := by
  unfold InvB; exact inferInstance

instance {V E : Type} [DecidableEq E] (g : Graph V E) : Decidable (InvC g) := by
  unfold InvC; exact inferInstance

instance {V E : Type} (g : Graph V E) : Decidable (InvD g) := by
  unfold InvD; exact inferInstance

instance {V E : Type} [DecidableEq E] (g : Graph V E) : Decidable (GWF g) := by
  unfold GWF; exact inferInstance

instance {V E : Type} [DecidableEq V] [DecidableEq E] (g : GraphMap V E) :
    Decidable (WFM g) := by
  unfold WFM; exact inferInstance

instance {V E : Type} [DecidableEq V] (g : GraphMap V E) (a b : V) :
    Decidable (edgeRel g a b) := by
  unfold edgeRel; exact inferInstance

section AssocLemmas

variable {K A : Type} [DecidableEq K]

theorem alookup_ainsert_self (m : List (K × A)) (k : K) (a : A) :
    alookup (ainsert m k a) k = some a := by
  induction m with
  | nil => simp [ainsert, alookup]
  | cons p t ih =>
    obtain ⟨q, b⟩ := p
    by_cases hk : q = k
    · subst hk; simp [ainsert, alookup]
    · simp [ainsert, alookup, hk, ih]

theorem alookup_ainsert_ne (m : List (K × A)) {k k' : K} (a : A) (h : k' ≠ k) :
    alookup (ainsert m k a) k' = alookup m k' := by
  have h' : ¬(k = k') := fun hh => h hh.symm
  induction m with
  | nil => simp [ainsert, alookup, h']
  | cons p t ih =>
    obtain ⟨q, b⟩ := p
    by_cases hk : q = k
    · subst hk; simp [ainsert, alookup, h']
    · simp [ainsert, alookup, hk, ih]

theorem alookup_aerase_self (m : List (K × A)) (k : K) :
    alookup (aerase m k) k = none := by
  induction m with
  | nil => simp [aerase, alookup]
  | cons p t ih =>
    obtain ⟨q, b⟩ := p
    by_cases hk : q = k
    · subst hk; simp [aerase, ih]
    · simp [aerase, alookup, hk, ih]

theorem alookup_aerase_ne (m : List (K × A)) {k k' : K} (h : k' ≠ k) :
    alookup (aerase m k) k' = alookup m k' := by
  have h' : ¬(k = k') := fun hh => h hh.symm
  induction m with
  | nil => simp [aerase, alookup]
  | cons p t ih =>
    obtain ⟨q, b⟩ := p
    by_cases hk : q = k
    · subst hk; simp [aerase, alookup, h', ih]
    · simp [aerase, alookup, hk, ih]

theorem mem_of_alookup_some {m : List (K × A)} {k : K} {a : A}
    (h : alookup m k = some a) : (k, a) ∈ m := by
  induction m with
  | nil => simp [alookup] at h
  | cons p t ih =>
    obtain ⟨q, b⟩ := p
    by_cases hk : q = k
    · subst hk
      simp [alookup] at h
      subst h
      exact List.mem_cons_self _ _
    · simp [alookup, hk] at h
      exact List.mem_cons_of_mem _ (ih h)

theorem alookup_isSome_of_mem {m : List (K × A)} {k : K} {a : A}
    (h : (k, a) ∈ m) : (alookup m k).isSome = true := by
  induction m with
  | nil => simp at h
  | cons p t ih =>
    obtain ⟨q, b⟩ := p
    by_cases hk : q = k
    · subst hk; simp [alookup]
    · rcases List.mem_cons.mp h with h1 | h1
      · injection h1 with h2 h3
        exact absurd h2.symm hk
      · simp [alookup, hk]
        exact ih h1

theorem mem_ainsert {m : List (K × A)} {k : K} {a : A} {p : K × A}
    (h : p ∈ ainsert m k a) : p = (k, a) ∨ p ∈ m := by
  induction m with
  | nil => simp [ainsert] at h; exact Or.inl h
  | cons q t ih =>
    obtain ⟨q1, b⟩ := q
    by_cases hk : q1 = k
    · subst hk
      simp [ainsert] at h
      rcases h with h | h
      · exact Or.inl h
      · exact Or.inr (List.mem_cons_of_mem _ h)
    · simp [ainsert, hk] at h
      rcases h with h | h
      · exact Or.inr (by simp [h])
      · rcases ih h with h' | h'
        · exact Or.inl h'
        · exact Or.inr (List.mem_cons_of_mem _ h')

theorem mem_aerase {m : List (K × A)} {k : K} {p : K × A}
    (h : p ∈ aerase m k) : p ∈ m ∧ p.1 ≠ k := by
  induction m with
  | nil => simp [aerase] at h
  | cons q t ih =>
    obtain ⟨q1, b⟩ := q
    by_cases hk : q1 = k
    · subst hk
      simp only [aerase, if_pos rfl] at h
      obtain ⟨h1, h2⟩ := ih h
      exact ⟨List.mem_cons_of_mem _ h1, h2⟩
    · simp only [aerase, if_neg hk, List.mem_cons] at h
      rcases h with h | h
      · refine ⟨by simp [h], ?_⟩
        rw [h]
        exact hk
      · obtain ⟨h1, h2⟩ := ih h
        exact ⟨List.mem_cons_of_mem _ h1, h2⟩

theorem aerase_mem_of_mem {m : List (K × A)} {k : K} {p : K × A}
    (h : p ∈ m) (hne : p.1 ≠ k) : p ∈ aerase m k := by
  induction m with
  | nil => simp at h
  | cons q t ih =>
    obtain ⟨q1, b⟩ := q
    rcases List.mem_cons.mp h with h1 | h1
    · have hq : q1 ≠ k := by rw [h1] at hne; exact hne
      rw [h1]
      simp [aerase, hq]
    · by_cases hk : q1 = k
      · subst hk
        simp only [aerase, if_pos rfl]
        exact ih h1
      · simp only [aerase, if_neg hk, List.mem_cons]
        exact Or.inr (ih h1)

theorem alookup_append (m m₂ : List (K × A)) (k : K) :
    alookup (m ++ m₂) k =
      match alookup m k with
      | some a => some a
      | none => alookup m₂ k := by
  induction m with
  | nil => simp [alookup]
  | cons p t ih =>
    obtain ⟨q, b⟩ := p
    by_cases hk : q = k <;> simp [alookup, hk, ih]

theorem alookup_aentryDefault_self (m : List (K × List K)) (k : K) :
    alookup (aentryDefault m k) k = some ((alookup m k).getD []) := by
  unfold aentryDefault
  cases h : alookup m k with
  | some s => simp [h]
  | none => simp [alookup_append, h, alookup]

theorem alookup_aentryDefault_ne (m : List (K × List K)) {k k' : K} (h : k' ≠ k) :
    alookup (aentryDefault m k) k' = alookup m k' := by
  have h' : ¬(k = k') := fun hh => h hh.symm
  unfold aentryDefault
  cases hm : alookup m k with
  | some s => rfl
  | none =>
    rw [alookup_append]
    cases hl : alookup m k' <;> simp [alookup, h']

theorem mem_aentryDefault {m : List (K × List K)} {k : K} {p : K × List K}
    (h : p ∈ aentryDefault m k) : p ∈ m ∨ p = (k, []) := by
  unfold aentryDefault at h
  cases hm : alookup m k with
  | some s => rw [hm] at h; exact Or.inl h
  | none =>
    rw [hm] at h
    rcases List.mem_append.mp h with h1 | h1
    · exact Or.inl h1
    · simp at h1
      exact Or.inr (by simp [h1])

theorem mem_sinsert {s : List K} {x y : K} :
    x ∈ sinsert s y ↔ x ∈ s ∨ x = y := by
  unfold sinsert
  by_cases h : y ∈ s
  · simp only [if_pos h]
    constructor
    · exact Or.inl
    · rintro (h1 | h1)
      · exact h1
      · rw [h1]; exact h
  · simp [if_neg h]

theorem mem_serase {s : List K} {x y : K} :
    x ∈ serase s y ↔ x ∈ s ∧ x ≠ y := by
  induction s with
  | nil => simp [serase]
  | cons z t ih =>
    by_cases hz : z = y
    · subst hz
      rw [show serase (z :: t) z = serase t z from by simp [serase]]
      rw [ih]
      simp only [List.mem_cons]
      constructor
      · rintro ⟨h1, h2⟩
        exact ⟨Or.inr h1, h2⟩
      · rintro ⟨h1 | h1, h2⟩
        · exact absurd h1 h2
        · exact ⟨h1, h2⟩
    · simp only [serase, if_neg hz, List.mem_cons, ih]
      constructor
      · rintro (h1 | ⟨h1, h2⟩)
        · exact ⟨Or.inl h1, by rw [h1]; exact hz⟩
        · exact ⟨Or.inr h1, h2⟩
      · rintro ⟨h1 | h1, h2⟩
        · exact Or.inl h1
        · exact Or.inr ⟨h1, h2⟩

theorem serase_idem (s : List K) (x : K) : serase (serase s x) x = serase s x := by
  induction s with
  | nil => simp [serase]
  | cons z t ih =>
    by_cases hz : z = x <;> simp [serase, hz, ih]

theorem alookup_none_iff_not_mem_keys {m : List (K × A)} {k : K} :
    alookup m k = none ↔ k ∉ m.map Prod.fst := by
  induction m with
  | nil => simp [alookup]
  | cons p t ih =>
    obtain ⟨q, b⟩ := p
    by_cases hk : q = k
    · subst hk; simp [alookup]
    · have h2 : ¬(k = q) := fun hh => hk hh.symm
      simp [alookup, hk, ih, h2]

theorem alookup_isSome_iff_mem_keys {m : List (K × A)} {k : K} :
    (alookup m k).isSome = true ↔ k ∈ m.map Prod.fst := by
  induction m with
  | nil => simp [alookup]
  | cons p t ih =>
    obtain ⟨q, b⟩ := p
    by_cases hk : q = k
    · subst hk; simp [alookup]
    · have h2 : ¬(k = q) := fun hh => hk hh.symm
      simp [alookup, hk, ih, h2]

end AssocLemmas

/-- The keys of an association list are distinct: true of every list
that embeds a Rust `HashMap`, and preserved by all operations. -/
def NodupKeys {K A : Type} (m : List (K × A)) : Prop :=
  (m.map Prod.fst).Nodup

instance {K A : Type} [DecidableEq K] (m : List (K × A)) : Decidable (NodupKeys m) := by
  unfold NodupKeys; exact inferInstance

/-- All four maps of an identity-keyed graph have distinct keys. -/
def GNK {V E : Type} (g : Graph V E) : Prop :=
  NodupKeys g.arena ∧ NodupKeys g.inbound ∧ NodupKeys g.outbound ∧ NodupKeys g.edges

instance {V E : Type} (g : Graph V E) : Decidable (GNK g) := by
  unfold GNK; exact inferInstance

section NodupLemmas

variable {K A : Type} [DecidableEq K]

theorem mem_keys_ainsert {m : List (K × A)} {k x : K} {a : A} :
    x ∈ (ainsert m k a).map Prod.fst ↔ x ∈ m.map Prod.fst ∨ x = k := by
  induction m with
  | nil => simp [ainsert]
  | cons p t ih =>
    obtain ⟨q, b⟩ := p
    by_cases hk : q = k
    · have h1 : ainsert ((q, b) :: t) k a = (k, a) :: t := by simp [ainsert, hk]
      rw [h1, hk]
      simp only [List.map_cons, List.mem_cons]
      tauto
    · simp [ainsert, hk, ih, or_assoc]

theorem nodupKeys_ainsert {m : List (K × A)} (hm : NodupKeys m) (k : K) (a : A) :
    NodupKeys (ainsert m k a) := by
  induction m with
  | nil => simp [NodupKeys, ainsert]
  | cons p t ih =>
    obtain ⟨q, b⟩ := p
    have ht : NodupKeys t := (List.nodup_cons.mp hm).2
    have hq : q ∉ t.map Prod.fst := (List.nodup_cons.mp hm).1
    by_cases hk : q = k
    · have h1 : ainsert ((q, b) :: t) k a = (k, a) :: t := by simp [ainsert, hk]
      unfold NodupKeys at hm ⊢
      rw [h1]
      simp only [List.map_cons] at hm ⊢
      rw [← hk]
      exact hm
    · unfold NodupKeys
      simp only [ainsert, if_neg hk, List.map_cons, List.nodup_cons]
      refine ⟨?_, ih ht⟩
      intro hmem
      rcases mem_keys_ainsert.mp hmem with h | h
      · exact hq h
      · exact hk h

theorem mem_keys_aerase {m : List (K × A)} {k x : K}
    (h : x ∈ (aerase m k).map Prod.fst) : x ∈ m.map Prod.fst := by
  simp only [List.mem_map] at h ⊢
  obtain ⟨p, hp, hpx⟩ := h
  exact ⟨p, (mem_aerase hp).1, hpx⟩

theorem nodupKeys_aerase {m : List (K × A)} (hm : NodupKeys m) (k : K) :
    NodupKeys (aerase m k) := by
  induction m with
  | nil => simp [NodupKeys, aerase]
  | cons p t ih =>
    obtain ⟨q, b⟩ := p
    have ht : NodupKeys t := (List.nodup_cons.mp hm).2
    have hq : q ∉ t.map Prod.fst := (List.nodup_cons.mp hm).1
    by_cases hk : q = k
    · subst hk
      simpa [NodupKeys, aerase] using ih ht
    · unfold NodupKeys
      simp only [aerase, if_neg hk, List.map_cons, List.nodup_cons]
      exact ⟨fun hmem => hq (mem_keys_aerase hmem), ih ht⟩

theorem nodupKeys_aentryDefault {m : List (K × List K)} (hm : NodupKeys m) (k : K) :
    NodupKeys (aentryDefault m k) := by
  unfold aentryDefault
  cases h : alookup m k with
  | some s => exact hm
  | none =>
    unfold NodupKeys
    rw [List.map_append]
    simp only [List.map_cons, List.map_nil]
    rw [List.nodup_append]
    refine ⟨hm, List.nodup_singleton k, ?_⟩
    intro x hx hx'
    simp at hx'
    subst hx'
    exact (alookup_none_iff_not_mem_keys.mp h) hx

theorem mem_ainsert_of_nodup {m : List (K × A)} (hm : NodupKeys m) {k : K} {a : A}
    {p : K × A} (h : p ∈ ainsert m k a) : p = (k, a) ∨ (p ∈ m ∧ p.1 ≠ k) := by
  induction m with
  | nil => simp [ainsert] at h; exact Or.inl h
  | cons q t ih =>
    obtain ⟨q1, b⟩ := q
    have ht : NodupKeys t := (List.nodup_cons.mp hm).2
    have hq : q1 ∉ t.map Prod.fst := (List.nodup_cons.mp hm).1
    by_cases hk : q1 = k
    · have h2 : ainsert ((q1, b) :: t) k a = (k, a) :: t := by simp [ainsert, hk]
      rw [h2] at h
      rcases List.mem_cons.mp h with h1 | h1
      · exact Or.inl h1
      · refine Or.inr ⟨List.mem_cons_of_mem _ h1, ?_⟩
        intro hpk
        exact hq (by rw [hk, ← hpk]; exact List.mem_map_of_mem Prod.fst h1)
    · rw [show ainsert ((q1, b) :: t) k a = (q1, b) :: ainsert t k a from by
        simp [ainsert, hk]] at h
      rcases List.mem_cons.mp h with h1 | h1
      · exact Or.inr ⟨by simp [h1], by rw [h1]; exact hk⟩
      · rcases ih ht h1 with h' | h'
        · exact Or.inl h'
        · exact Or.inr ⟨List.mem_cons_of_mem _ h'.1, h'.2⟩

theorem isSome_of_mem_getD {o : Option (List K)} {x : K}
    (h : x ∈ o.getD []) : o.isSome = true := by
  cases o with
  | none => simp at h
  | some s => rfl

end NodupLemmas

section GraphOpLemmas

variable {V E : Type}

theorem aentryDefault_getD {K : Type} [DecidableEq K]
    (m : List (K × List K)) (k x : K) :
    (alookup (aentryDefault m k) x).getD [] = (alookup m x).getD [] := by
  by_cases hx : x = k
  · subst hx
    rw [alookup_aentryDefault_self]
    rfl
  · rw [alookup_aentryDefault_ne _ hx]

theorem get_edge_add_edge (g : Graph V E) (u v : VertexId) (w : E) (e : EdgeId) :
    (g.add_edge (u, v) w).get_edge e = if e = (u, v) then some w else g.get_edge e := by
  unfold Graph.add_edge Graph.get_edge
  by_cases he : e = (u, v)
  · subst he; simp [alookup_ainsert_self]
  · simp [if_neg he, alookup_ainsert_ne _ _ he]

theorem outbound_add_edge (g : Graph V E) (u v : VertexId) (w : E) (x : VertexId) :
    alookup (g.add_edge (u, v) w).outbound x =
      if x = u then some (sinsert ((alookup g.outbound u).getD []) v)
      else alookup g.outbound x := by
  unfold Graph.add_edge
  by_cases hx : x = u
  · subst hx
    simp only [if_pos rfl]
    rw [alookup_ainsert_self, alookup_aentryDefault_self]
    rfl
  · simp only [if_neg hx]
    rw [alookup_ainsert_ne _ _ hx, alookup_aentryDefault_ne _ hx]

theorem inbound_add_edge (g : Graph V E) (u v : VertexId) (w : E) (x : VertexId) :
    alookup (g.add_edge (u, v) w).inbound x =
      if x = v then some (sinsert ((alookup g.inbound v).getD []) u)
      else alookup g.inbound x := by
  unfold Graph.add_edge
  by_cases hx : x = v
  · subst hx
    simp only [if_pos rfl]
    rw [alookup_ainsert_self, alookup_aentryDefault_self]
    rfl
  · simp only [if_neg hx]
    rw [alookup_ainsert_ne _ _ hx, alookup_aentryDefault_ne _ hx]

theorem edges_add_edge (g : Graph V E) (u v : VertexId) (w : E) :
    (g.add_edge (u, v) w).edges = ainsert g.edges (u, v) w := rfl

theorem arena_add_edge (g : Graph V E) (e : EdgeId) (w : E) :
    (g.add_edge e w).arena = g.arena := rfl

theorem remove_edge_ok (g : Graph V E) (u v : VertexId) {su sv : List VertexId}
    (hu : alookup g.outbound u = some su) (hv : alookup g.inbound v = some sv) :
    g.remove_edge (u, v) = .ok { g with
      edges := aerase g.edges (u, v)
      outbound := ainsert g.outbound u (serase su v)
      inbound := ainsert g.inbound v (serase sv u) } := by
  simp only [Graph.remove_edge, aupdateSet, hu, hv]

theorem removeOutLoop_ok (f : VertexId) (outs : List VertexId)
    (ed : List (EdgeId × E)) (inb : List (VertexId × List VertexId))
    (h : ∀ t ∈ outs, (alookup inb t).isSome = true) :
    ∃ ed' inb', Graph.removeOutLoop f outs ed inb = some (ed', inb') ∧
      (∀ e : EdgeId, alookup ed' e =
        if e.1 = f ∧ e.2 ∈ outs then none else alookup ed e) ∧
      (∀ x, alookup inb' x =
        if x ∈ outs then (alookup inb x).map (fun s => serase s f)
        else alookup inb x) := by
  induction outs generalizing ed inb with
  | nil =>
    refine ⟨ed, inb, rfl, ?_, ?_⟩
    · intro e; simp
    · intro x; simp
  | cons t rest ih =>
    obtain ⟨s, hs⟩ := Option.isSome_iff_exists.mp (h t (List.mem_cons_self _ _))
    have hstep : Graph.removeOutLoop f (t :: rest) ed inb =
        Graph.removeOutLoop f rest (aerase ed (f, t)) (ainsert inb t (serase s f)) := by
      simp only [Graph.removeOutLoop, aupdateSet, hs]
    have hrest : ∀ x ∈ rest, (alookup (ainsert inb t (serase s f)) x).isSome = true := by
      intro x hx
      by_cases hxt : x = t
      · subst hxt; rw [alookup_ainsert_self]; rfl
      · rw [alookup_ainsert_ne _ _ hxt]
        exact h x (List.mem_cons_of_mem _ hx)
    obtain ⟨ed', inb', hloop, hed, hinb⟩ := ih (aerase ed (f, t)) (ainsert inb t (serase s f)) hrest
    refine ⟨ed', inb', by rw [hstep]; exact hloop, ?_, ?_⟩
    · intro e
      rw [hed e]
      by_cases h1 : e.1 = f
      · by_cases h2 : e.2 ∈ rest
        · simp [h1, h2]
        · by_cases h3 : e.2 = t
          · have he : e = (f, t) := Prod.ext h1 h3
            simp [h1, h2, h3, he, alookup_aerase_self]
          · have he : e ≠ (f, t) := fun hh => h3 (by rw [hh])
            simp [h1, h2, h3, alookup_aerase_ne _ he]
      · have he : e ≠ (f, t) := fun hh => h1 (by rw [hh])
        simp [h1, alookup_aerase_ne _ he]
    · intro x
      rw [hinb x]
      by_cases hxt : x = t
      · subst hxt
        by_cases hxr : x ∈ rest
        · simp only [hxr, if_pos, List.mem_cons, true_or, if_true,
            alookup_ainsert_self, hs, Option.map_some']
          simp [serase_idem]
        · simp [hxr, alookup_ainsert_self, hs]
      · rw [alookup_ainsert_ne _ _ hxt]
        by_cases hxr : x ∈ rest
        · simp [hxr, hxt]
        · simp [hxr, hxt]

theorem removeInLoop_lookup (t : VertexId) (ins : List VertexId)
    (ed : List (EdgeId × E)) (e : EdgeId) :
    alookup (Graph.removeInLoop t ins ed) e =
      if e.2 = t ∧ e.1 ∈ ins then none else alookup ed e := by
  induction ins generalizing ed with
  | nil => simp [Graph.removeInLoop]
  | cons f rest ih =>
    show alookup (Graph.removeInLoop t rest (aerase ed (f, t))) e = _
    rw [ih]
    by_cases h2 : e.2 = t
    · by_cases h1 : e.1 ∈ rest
      · simp [h1, h2]
      · by_cases h3 : e.1 = f
        · have he : e = (f, t) := Prod.ext h3 h2
          simp [h1, h2, h3, he, alookup_aerase_self]
        · have he : e ≠ (f, t) := fun hh => h3 (by rw [hh])
          simp [h1, h2, h3, alookup_aerase_ne _ he]
    · have he : e ≠ (f, t) := fun hh => h2 (by rw [hh])
      simp [h2, alookup_aerase_ne _ he]

theorem remove_vertex_ok (g : Graph V E) (v : VertexId)
    {outs ins0 : List VertexId}
    (hout : alookup g.outbound v = some outs)
    (hinv : alookup g.inbound v = some ins0)
    (hin : ∀ t ∈ outs, (alookup g.inbound t).isSome = true) :
    ∃ g', g.remove_vertex v = .ok g' ∧
      g'.arena = aerase g.arena v ∧
      g'.outbound = aerase g.outbound v ∧
      g'.nextId = g.nextId ∧
      (∀ x, alookup g'.inbound x =
        if x = v then none
        else if x ∈ outs then (alookup g.inbound x).map (fun s => serase s v)
        else alookup g.inbound x) ∧
      (∀ e : EdgeId, alookup g'.edges e =
        if e.1 = v ∧ e.2 ∈ outs then none
        else if e.2 = v ∧ e.1 ∈ (if v ∈ outs then serase ins0 v else ins0) then none
        else alookup g.edges e) := by
  obtain ⟨ed1, inb1, hloop, hed, hinb⟩ := removeOutLoop_ok v outs g.edges g.inbound hin
  have hinb1v : alookup inb1 v = some (if v ∈ outs then serase ins0 v else ins0) := by
    rw [hinb v]
    by_cases hv : v ∈ outs
    · simp [hv, hinv]
    · simp [hv, hinv]
  have heq : g.remove_vertex v = .ok { g with
      arena := aerase g.arena v
      edges := Graph.removeInLoop v (if v ∈ outs then serase ins0 v else ins0) ed1
      inbound := aerase inb1 v
      outbound := aerase g.outbound v } := by
    simp only [Graph.remove_vertex, hout, hloop, hinb1v]
  refine ⟨_, heq, rfl, rfl, rfl, ?_, ?_⟩
  · intro x
    by_cases hx : x = v
    · subst hx
      simp [alookup_aerase_self]
    · rw [if_neg hx, alookup_aerase_ne _ hx, hinb x]
  · intro e
    rw [removeInLoop_lookup, hed e]
    by_cases h1 : e.1 = v ∧ e.2 ∈ outs
    · by_cases h2 : e.2 = v ∧ e.1 ∈ (if v ∈ outs then serase ins0 v else ins0)
      · have hv : v ∈ outs := h2.1 ▸ h1.2
        simp [h1, h2, hv]
      · simp [h1, h2]
    · by_cases h2 : e.2 = v ∧ e.1 ∈ (if v ∈ outs then serase ins0 v else ins0) <;>
        simp [h1, h2]

end GraphOpLemmas

section FacadeLemmas

variable {V E : Type} [DecidableEq V]

theorem add_vertex_already (g : GraphMap V E) (p : V) (id : VertexId)
    (hid : alookup g.map p = some id) : g.add_vertex p = g := by
  simp only [GraphMap.add_vertex, hid]

theorem add_or_get_already (g : GraphMap V E) (p : V) (id : VertexId)
    (hid : alookup g.map p = some id) : g.add_or_get_vertex p = (id, g) := by
  simp only [GraphMap.add_or_get_vertex, hid]

theorem add_vertex_map_lookup (g : GraphMap V E) (p : V) :
    ∃ id, alookup (g.add_vertex p).map p = some id := by
  unfold GraphMap.add_vertex
  cases h : alookup g.map p with
  | some id => exact ⟨id, by simp [h]⟩
  | none => exact ⟨g.graph.nextId, by simp [h, alookup_ainsert_self, Graph.add_vertex]⟩

end FacadeLemmas

section InversionLemmas

variable {V E : Type}

theorem alookup_eq_of_mem_nodup {K A : Type} [DecidableEq K] {m : List (K × A)}
    (hm : NodupKeys m) {q : K × A} (hq : q ∈ m) : alookup m q.1 = some q.2 := by
  obtain ⟨k, a⟩ := q
  induction m with
  | nil => simp at hq
  | cons p t ih =>
    obtain ⟨q1, b⟩ := p
    have ht : NodupKeys t := (List.nodup_cons.mp hm).2
    have hq1 : q1 ∉ t.map Prod.fst := (List.nodup_cons.mp hm).1
    rcases List.mem_cons.mp hq with h1 | h1
    · injection h1 with h2 h3
      subst h2; subst h3
      simp [alookup]
    · by_cases hk : q1 = k
      · subst hk
        exact absurd (List.mem_map_of_mem Prod.fst h1) hq1
      · simp only [alookup, if_neg hk]
        exact ih ht h1

theorem remove_edge_ok_inv (g g' : Graph V E) (u v : VertexId)
    (h : g.remove_edge (u, v) = .ok g') :
    ∃ su sv, alookup g.outbound u = some su ∧ alookup g.inbound v = some sv ∧
      g' = { g with
        edges := aerase g.edges (u, v)
        outbound := ainsert g.outbound u (serase su v)
        inbound := ainsert g.inbound v (serase sv u) } := by
  cases hu : alookup g.outbound u with
  | none => simp [Graph.remove_edge, aupdateSet, hu] at h
  | some su =>
    cases hv : alookup g.inbound v with
    | none => simp [Graph.remove_edge, aupdateSet, hu, hv] at h
    | some sv =>
      refine ⟨su, sv, rfl, rfl, ?_⟩
      rw [remove_edge_ok g u v hu hv] at h
      injection h with h1
      exact h1.symm

theorem removeOutLoop_some_inv (f : VertexId) (outs : List VertexId)
    (ed : List (EdgeId × E)) (inb : List (VertexId × List VertexId))
    (r : List (EdgeId × E) × List (VertexId × List VertexId))
    (h : Graph.removeOutLoop f outs ed inb = some r) :
    ∀ t ∈ outs, (alookup inb t).isSome = true := by
  induction outs generalizing ed inb with
  | nil => intro t ht; simp at ht
  | cons t rest ih =>
    intro x hx
    cases hs : alookup inb t with
    | none =>
      rw [show Graph.removeOutLoop f (t :: rest) ed inb = none from by
        simp [Graph.removeOutLoop, aupdateSet, hs]] at h
      exact absurd h (by simp)
    | some s =>
      have hstep : Graph.removeOutLoop f (t :: rest) ed inb =
          Graph.removeOutLoop f rest (aerase ed (f, t)) (ainsert inb t (serase s f)) := by
        simp only [Graph.removeOutLoop, aupdateSet, hs]
      rw [hstep] at h
      rcases List.mem_cons.mp hx with h1 | h1
      · rw [h1, hs]; rfl
      · have hx' := ih _ _ h x h1
        by_cases hxt : x = t
        · rw [hxt, hs]; rfl
        · rw [alookup_ainsert_ne _ _ hxt] at hx'
          exact hx'

theorem removeOutLoop_nodup (f : VertexId) (outs : List VertexId)
    (ed : List (EdgeId × E)) (inb : List (VertexId × List VertexId))
    {ed' : List (EdgeId × E)} {inb' : List (VertexId × List VertexId)}
    (hed : NodupKeys ed) (hinb : NodupKeys inb)
    (h : Graph.removeOutLoop f outs ed inb = some (ed', inb')) :
    NodupKeys ed' ∧ NodupKeys inb' := by
  induction outs generalizing ed inb with
  | nil =>
    injection h with h1
    injection h1 with h2 h3
    rw [← h2, ← h3]
    exact ⟨hed, hinb⟩
  | cons t rest ih =>
    cases hs : alookup inb t with
    | none =>
      rw [show Graph.removeOutLoop f (t :: rest) ed inb = none from by
        simp [Graph.removeOutLoop, aupdateSet, hs]] at h
      exact absurd h (by simp)
    | some s =>
      have hstep : Graph.removeOutLoop f (t :: rest) ed inb =
          Graph.removeOutLoop f rest (aerase ed (f, t)) (ainsert inb t (serase s f)) := by
        simp only [Graph.removeOutLoop, aupdateSet, hs]
      rw [hstep] at h
      exact ih _ _ (nodupKeys_aerase hed _) (nodupKeys_ainsert hinb _ _) h

theorem removeInLoop_nodup (t : VertexId) (ins : List VertexId)
    (ed : List (EdgeId × E)) (hed : NodupKeys ed) :
    NodupKeys (Graph.removeInLoop t ins ed) := by
  induction ins generalizing ed with
  | nil => exact hed
  | cons f rest ih => exact ih _ (nodupKeys_aerase hed _)

theorem remove_vertex_ok_inv (g g' : Graph V E) (v : VertexId)
    (h : g.remove_vertex v = .ok g') :
    ∃ outs ins0, alookup g.outbound v = some outs ∧
      alookup g.inbound v = some ins0 ∧
      (∀ t ∈ outs, (alookup g.inbound t).isSome = true) := by
  cases hout : alookup g.outbound v with
  | none => simp [Graph.remove_vertex, hout] at h
  | some outs =>
    cases hloop : Graph.removeOutLoop v outs g.edges g.inbound with
    | none => simp [Graph.remove_vertex, hout, hloop] at h
    | some r =>
      have hin := removeOutLoop_some_inv v outs g.edges g.inbound r hloop
      obtain ⟨ed', inb', hloop2, hed, hinb⟩ := removeOutLoop_ok v outs g.edges g.inbound hin
      rw [hloop2] at hloop
      injection hloop with hr
      cases hiv : alookup inb' v with
      | none =>
        simp [Graph.remove_vertex, hout, hloop2, hiv] at h
      | some ins1 =>
        have hsome : (alookup g.inbound v).isSome = true := by
          have hf := hinb v
          rw [hiv] at hf
          by_cases hvo : v ∈ outs
          · rw [if_pos hvo] at hf
            cases hgi : alookup g.inbound v with
            | none => rw [hgi] at hf; simp at hf
            | some s => rfl
          · rw [if_neg hvo] at hf
            rw [← hf]
            rfl
        obtain ⟨ins0, hins0⟩ := Option.isSome_iff_exists.mp hsome
        exact ⟨outs, ins0, rfl, hins0, hin⟩

end InversionLemmas

section Preservation

variable {V E : Type}

theorem invABC_add_vertex (g : Graph V E) (p : V)
    (h : InvA g ∧ InvB g ∧ InvC g) :
    InvA (g.add_vertex p).2 ∧ InvB (g.add_vertex p).2 ∧ InvC (g.add_vertex p).2 := by
  obtain ⟨hA, hB, hC⟩ := h
  have hob : (g.add_vertex p).2.outbound = aentryDefault g.outbound g.nextId := rfl
  have hib : (g.add_vertex p).2.inbound = aentryDefault g.inbound g.nextId := rfl
  have hee : (g.add_vertex p).2.edges = g.edges := rfl
  refine ⟨?_, ?_, ?_⟩
  · intro q hq
    rw [hee] at hq
    obtain ⟨h1, h2⟩ := hA q hq
    rw [hob, hib, aentryDefault_getD, aentryDefault_getD]
    exact ⟨h1, h2⟩
  · intro q hq y hy
    rw [hob] at hq
    rw [hee]
    rcases mem_aentryDefault hq with h1 | h1
    · exact hB q h1 y hy
    · rw [h1] at hy
      simp at hy
  · intro q hq y hy
    rw [hib] at hq
    rw [hee]
    rcases mem_aentryDefault hq with h1 | h1
    · exact hC q h1 y hy
    · rw [h1] at hy
      simp at hy

theorem invABC_add_edge (g : Graph V E) (u v : VertexId) (w : E)
    (h : InvA g ∧ InvB g ∧ InvC g) :
    InvA (g.add_edge (u, v) w) ∧ InvB (g.add_edge (u, v) w) ∧
      InvC (g.add_edge (u, v) w) := by
  obtain ⟨hA, hB, hC⟩ := h
  have hee : (g.add_edge (u, v) w).edges = ainsert g.edges (u, v) w := rfl
  have hnew : ∀ y : VertexId × VertexId,
      (alookup (g.add_edge (u, v) w).edges y).isSome = true ↔
      (y = (u, v) ∨ (alookup g.edges y).isSome = true) := by
    intro y
    rw [hee]
    by_cases hy : y = (u, v)
    · rw [hy, alookup_ainsert_self]
      simp
    · rw [alookup_ainsert_ne _ _ hy]
      simp [hy]
  refine ⟨?_, ?_, ?_⟩
  · intro q hq
    rw [hee] at hq
    rcases mem_ainsert hq with h1 | h1
    · rw [h1]
      constructor
      · show v ∈ (alookup (g.add_edge (u, v) w).outbound u).getD []
        rw [outbound_add_edge]
        simp [mem_sinsert]
      · show u ∈ (alookup (g.add_edge (u, v) w).inbound v).getD []
        rw [inbound_add_edge]
        simp [mem_sinsert]
    · obtain ⟨h1o, h2o⟩ := hA q h1
      constructor
      · rw [outbound_add_edge]
        by_cases hq1 : q.1.1 = u
        · rw [if_pos hq1]
          simp only [Option.getD_some]
          exact mem_sinsert.mpr (Or.inl (by rw [← hq1]; exact h1o))
        · rw [if_neg hq1]
          exact h1o
      · rw [inbound_add_edge]
        by_cases hq2 : q.1.2 = v
        · rw [if_pos hq2]
          simp only [Option.getD_some]
          exact mem_sinsert.mpr (Or.inl (by rw [← hq2]; exact h2o))
        · rw [if_neg hq2]
          exact h2o
  · intro q hq y hy
    have hq' : q ∈ ainsert (aentryDefault g.outbound u) u
        (sinsert ((alookup (aentryDefault g.outbound u) u).getD []) v) := hq
    rw [hnew (q.1, y)]
    rcases mem_ainsert hq' with h1 | h1
    · rw [h1] at hy
      rcases mem_sinsert.mp hy with h2 | h2
      · rw [aentryDefault_getD] at h2
        obtain ⟨su, hsu⟩ := Option.isSome_iff_exists.mp (isSome_of_mem_getD h2)
        rw [hsu] at h2
        have hold := hB (u, su) (mem_of_alookup_some hsu) y h2
        right
        rw [h1]
        exact hold
      · left
        rw [h1, h2]
    · rcases mem_aentryDefault h1 with h2 | h2
      · exact Or.inr (hB q h2 y hy)
      · rw [h2] at hy
        simp at hy
  · intro q hq y hy
    have hq' : q ∈ ainsert (aentryDefault g.inbound v) v
        (sinsert ((alookup (aentryDefault g.inbound v) v).getD []) u) := hq
    rw [hnew (y, q.1)]
    rcases mem_ainsert hq' with h1 | h1
    · rw [h1] at hy
      rcases mem_sinsert.mp hy with h2 | h2
      · rw [aentryDefault_getD] at h2
        obtain ⟨sv, hsv⟩ := Option.isSome_iff_exists.mp (isSome_of_mem_getD h2)
        rw [hsv] at h2
        have hold := hC (v, sv) (mem_of_alookup_some hsv) y h2
        right
        rw [h1]
        exact hold
      · left
        rw [h1, h2]
    · rcases mem_aentryDefault h1 with h2 | h2
      · exact Or.inr (hC q h2 y hy)
      · rw [h2] at hy
        simp at hy

theorem invABC_remove_edge (g g' : Graph V E) (u v : VertexId)
    (hnk : GNK g) (h : InvA g ∧ InvB g ∧ InvC g)
    (hok : g.remove_edge (u, v) = .ok g') :
    InvA g' ∧ InvB g' ∧ InvC g' := by
  obtain ⟨hA, hB, hC⟩ := h
  obtain ⟨hnka, hnki, hnko, hnke⟩ := hnk
  obtain ⟨su, sv, hsu, hsv, hg'⟩ := remove_edge_ok_inv g g' u v hok
  subst hg'
  refine ⟨?_, ?_, ?_⟩
  · intro q hq
    obtain ⟨hq1, hq2⟩ := mem_aerase hq
    obtain ⟨h1o, h2o⟩ := hA q hq1
    constructor
    · show q.1.2 ∈ (alookup (ainsert g.outbound u (serase su v)) q.1.1).getD []
      by_cases hu1 : q.1.1 = u
      · rw [hu1, alookup_ainsert_self]
        simp only [Option.getD_some]
        refine mem_serase.mpr ⟨?_, ?_⟩
        · rw [hu1, hsu] at h1o
          exact h1o
        · intro hv2
          exact hq2 (Prod.ext hu1 hv2)
      · rw [alookup_ainsert_ne _ _ hu1]
        exact h1o
    · show q.1.1 ∈ (alookup (ainsert g.inbound v (serase sv u)) q.1.2).getD []
      by_cases hv2 : q.1.2 = v
      · rw [hv2, alookup_ainsert_self]
        simp only [Option.getD_some]
        refine mem_serase.mpr ⟨?_, ?_⟩
        · rw [hv2, hsv] at h2o
          exact h2o
        · intro hu1
          exact hq2 (Prod.ext hu1 hv2)
      · rw [alookup_ainsert_ne _ _ hv2]
        exact h2o
  · intro q hq y hy
    rcases mem_ainsert_of_nodup hnko hq with h1 | ⟨h1, h1ne⟩
    · rw [h1] at hy
      obtain ⟨hy1, hy2⟩ := mem_serase.mp hy
      have hold := hB (u, su) (mem_of_alookup_some hsu) y hy1
      have hne : ((u : VertexId), y) ≠ (u, v) := fun hh => hy2 (congrArg Prod.snd hh)
      rw [h1]
      show (alookup (aerase g.edges (u, v)) (u, y)).isSome = true
      rw [alookup_aerase_ne _ hne]
      exact hold
    · have hold := hB q h1 y hy
      have hne : (q.1, y) ≠ (u, v) := fun hh => h1ne (congrArg Prod.fst hh)
      show (alookup (aerase g.edges (u, v)) (q.1, y)).isSome = true
      rw [alookup_aerase_ne _ hne]
      exact hold
  · intro q hq y hy
    rcases mem_ainsert_of_nodup hnki hq with h1 | ⟨h1, h1ne⟩
    · rw [h1] at hy
      obtain ⟨hy1, hy2⟩ := mem_serase.mp hy
      have hold := hC (v, sv) (mem_of_alookup_some hsv) y hy1
      have hne : (y, (v : VertexId)) ≠ (u, v) := fun hh => hy2 (congrArg Prod.fst hh)
      rw [h1]
      show (alookup (aerase g.edges (u, v)) (y, v)).isSome = true
      rw [alookup_aerase_ne _ hne]
      exact hold
    · have hold := hC q h1 y hy
      have hne : (y, q.1) ≠ (u, v) := fun hh => h1ne (congrArg Prod.snd hh)
      show (alookup (aerase g.edges (u, v)) (y, q.1)).isSome = true
      rw [alookup_aerase_ne _ hne]
      exact hold

theorem invAC_remove_vertex (g g' : Graph V E) (v : VertexId)
    (hnk : GNK g) (h : InvA g ∧ InvB g ∧ InvC g)
    (hok : g.remove_vertex v = .ok g') :
    InvA g' ∧ InvC g' := by
  obtain ⟨hA, hB, hC⟩ := h
  obtain ⟨hnka, hnki, hnko, hnke⟩ := hnk
  obtain ⟨outs, ins0, hout, hinv, hin⟩ := remove_vertex_ok_inv g g' v hok
  obtain ⟨ed1, inb1, hloop, hed, hinb⟩ := removeOutLoop_ok v outs g.edges g.inbound hin
  have hinb1v : alookup inb1 v =
      some (if v ∈ outs then serase ins0 v else ins0) := by
    rw [hinb v]
    by_cases hv : v ∈ outs
    · simp [hv, hinv]
    · simp [hv, hinv]
  have heq : g.remove_vertex v = .ok { g with
      arena := aerase g.arena v
      edges := Graph.removeInLoop v (if v ∈ outs then serase ins0 v else ins0) ed1
      inbound := aerase inb1 v
      outbound := aerase g.outbound v } := by
    simp only [Graph.remove_vertex, hout, hloop, hinb1v]
  rw [heq] at hok
  injection hok with hgg
  subst hgg
  have hnodups := removeOutLoop_nodup v outs g.edges g.inbound hnke hnki hloop
  constructor
  · intro q hq
    have hq' : q ∈ Graph.removeInLoop v
        (if v ∈ outs then serase ins0 v else ins0) ed1 := hq
    have hlq := alookup_eq_of_mem_nodup
      (removeInLoop_nodup v _ ed1 hnodups.1) hq'
    rw [removeInLoop_lookup, hed q.1] at hlq
    by_cases c2 : q.1.2 = v ∧ q.1.1 ∈ (if v ∈ outs then serase ins0 v else ins0)
    · rw [if_pos c2] at hlq
      exact absurd hlq (by simp)
    rw [if_neg c2] at hlq
    by_cases c1 : q.1.1 = v ∧ q.1.2 ∈ outs
    · rw [if_pos c1] at hlq
      exact absurd hlq (by simp)
    rw [if_neg c1] at hlq
    obtain ⟨h1o, h2o⟩ := hA q (mem_of_alookup_some hlq)
    have hne1 : q.1.1 ≠ v := by
      intro hq1
      have hm : q.1.2 ∈ outs := by
        rw [hq1, hout] at h1o
        exact h1o
      exact c1 ⟨hq1, hm⟩
    have hne2 : q.1.2 ≠ v := by
      intro hq2
      have hmem0 : q.1.1 ∈ ins0 := by
        rw [hq2, hinv] at h2o
        exact h2o
      apply c2
      refine ⟨hq2, ?_⟩
      by_cases hvo : v ∈ outs
      · rw [if_pos hvo]
        exact mem_serase.mpr ⟨hmem0, hne1⟩
      · rw [if_neg hvo]
        exact hmem0
    constructor
    · show q.1.2 ∈ (alookup (aerase g.outbound v) q.1.1).getD []
      rw [alookup_aerase_ne _ hne1]
      exact h1o
    · show q.1.1 ∈ (alookup (aerase inb1 v) q.1.2).getD []
      rw [alookup_aerase_ne _ hne2, hinb q.1.2]
      by_cases ho : q.1.2 ∈ outs
      · rw [if_pos ho]
        obtain ⟨s2, hs2⟩ := Option.isSome_iff_exists.mp (isSome_of_mem_getD h2o)
        rw [hs2]
        simp only [Option.map_some', Option.getD_some]
        refine mem_serase.mpr ⟨?_, hne1⟩
        rw [hs2] at h2o
        exact h2o
      · rw [if_neg ho]
        exact h2o
  · intro q hq y hy
    obtain ⟨hq1, hqne⟩ := mem_aerase hq
    have hlq := alookup_eq_of_mem_nodup hnodups.2 hq1
    rw [hinb q.1] at hlq
    by_cases ho : q.1 ∈ outs
    · rw [if_pos ho] at hlq
      cases hgi : alookup g.inbound q.1 with
      | none =>
        rw [hgi] at hlq
        simp at hlq
      | some s =>
        rw [hgi] at hlq
        simp only [Option.map_some'] at hlq
        injection hlq with hq2
        rw [← hq2] at hy
        obtain ⟨hy1, hy2⟩ := mem_serase.mp hy
        have hold := hC (q.1, s) (mem_of_alookup_some hgi) y hy1
        show (alookup (Graph.removeInLoop v
          (if v ∈ outs then serase ins0 v else ins0) ed1) (y, q.1)).isSome = true
        rw [removeInLoop_lookup, hed (y, q.1)]
        have hc2 : ¬((y, q.1).2 = v ∧
            (y, q.1).1 ∈ (if v ∈ outs then serase ins0 v else ins0)) :=
          fun hh => hqne hh.1
        have hc1 : ¬((y, q.1).1 = v ∧ (y, q.1).2 ∈ outs) := fun hh => hy2 hh.1
        rw [if_neg hc2, if_neg hc1]
        exact hold
    · rw [if_neg ho] at hlq
      have hold := hC (q.1, q.2) (mem_of_alookup_some hlq) y hy
      show (alookup (Graph.removeInLoop v
        (if v ∈ outs then serase ins0 v else ins0) ed1) (y, q.1)).isSome = true
      rw [removeInLoop_lookup, hed (y, q.1)]
      have hc1 : ¬((y, q.1).1 = v ∧ (y, q.1).2 ∈ outs) := fun hh => ho hh.2
      have hc2 : ¬((y, q.1).2 = v ∧
          (y, q.1).1 ∈ (if v ∈ outs then serase ins0 v else ins0)) :=
        fun hh => hqne hh.1
      rw [if_neg hc2, if_neg hc1]
      exact hold

end Preservation

/-- The two-vertex graph with a single edge used by the concrete
panic scenario: identities 0 and 1, edge (0, 1). -/
def c4pre : Graph Nat Nat :=
  (((Graph.new Nat Nat).add_vertex 10).2.add_vertex 20).2.add_edge (0, 1) 5

/-- The state after removing vertex 1 from `c4pre`. -/
def c4post : Graph Nat Nat :=
  match c4pre.remove_vertex 1 with
  | .ok g => g
  | _ => c4pre

/-- The same two-vertex, one-edge graph, for the invariant counterexample. -/
def c2pre : Graph Nat Nat :=
  (((Graph.new Nat Nat).add_vertex 10).2.add_vertex 20).2.add_edge (0, 1) 5

/-- The state after removing vertex 1 from `c2pre`. -/
def c2post : Graph Nat Nat :=
  match c2pre.remove_vertex 1 with
  | .ok g => g
  | _ => c2pre

/-- The state after removing the edge (0, 1) from `c2pre`. -/
def c2er : Graph Nat Nat :=
  match c2pre.remove_edge (0, 1) with
  | .ok g => g
  | _ => c2pre

/-- C2 (amended): the adjacency invariant — for every edge (u,v),
v ∈ outbound[u] and u ∈ inbound[v], and every pair in either adjacency
set has a corresponding edge entry — is preserved by `add_vertex`,
`add_edge` and `remove_edge`; `remove_vertex` preserves the forward
direction and the inbound converse, but not the outbound converse
(the removed vertex can stay behind in predecessors' outbound sets). -/
theorem adjacency_invariant_preservation {V E : Type} :
    (∀ (g : Graph V E) (p : V), InvA g ∧ InvB g ∧ InvC g →
      InvA (g.add_vertex p).2 ∧ InvB (g.add_vertex p).2 ∧
        InvC (g.add_vertex p).2) ∧
    (∀ (g : Graph V E) (u v : VertexId) (w : E), InvA g ∧ InvB g ∧ InvC g →
      InvA (g.add_edge (u, v) w) ∧ InvB (g.add_edge (u, v) w) ∧
        InvC (g.add_edge (u, v) w)) ∧
    (∀ (g g' : Graph V E) (u v : VertexId), GNK g → InvA g ∧ InvB g ∧ InvC g →
      g.remove_edge (u, v) = .ok g' → InvA g' ∧ InvB g' ∧ InvC g') ∧
    (∀ (g g' : Graph V E) (v : VertexId), GNK g → InvA g ∧ InvB g ∧ InvC g →
      g.remove_vertex v = .ok g' → InvA g' ∧ InvC g') :=
  ⟨invABC_add_vertex, invABC_add_edge, invABC_remove_edge, invAC_remove_vertex⟩

/-- Witness for C2 at the concrete graph `c2pre` (vertices 0, 1 and
edge (0, 1)) for each of the four operations. -/
theorem adjacency_invariant_preservation_witness :
    (InvA (c2pre.add_vertex 30).2 ∧ InvB (c2pre.add_vertex 30).2 ∧
      InvC (c2pre.add_vertex 30).2) ∧
    (InvA (c2pre.add_edge (0, 1) 9) ∧ InvB (c2pre.add_edge (0, 1) 9) ∧
      InvC (c2pre.add_edge (0, 1) 9)) ∧
    (InvA c2er ∧ InvB c2er ∧ InvC c2er) ∧
    (InvA c2post ∧ InvC c2post) :=
  ⟨adjacency_invariant_preservation.1 c2pre 30 (by decide),
   adjacency_invariant_preservation.2.1 c2pre 0 1 9 (by decide),
   adjacency_invariant_preservation.2.2.1 c2pre c2er 0 1 (by decide) (by decide)
     (by decide),
   adjacency_invariant_preservation.2.2.2 c2pre c2post 1 (by decide) (by decide)
     (by decide)⟩

/-- Counterexample for C2 as stated: `c2pre` satisfies the full
invariant (with distinct map keys), `remove_vertex 1` succeeds, yet in
the result vertex 1 is still recorded in `outbound[0]` while the edge
(0, 1) is gone — the outbound converse of the invariant fails. -/
theorem adjacency_invariant_broken_by_remove_vertex :
    GNK c2pre ∧ InvA c2pre ∧ InvB c2pre ∧ InvC c2pre ∧
    c2pre.remove_vertex 1 = Res.ok c2post ∧
    1 ∈ (alookup c2post.outbound 0).getD [] ∧
    ¬ InvB c2post := by decide

/-- The spec's shortest-path scenario with payloads A, B, C rendered as
1, 2, 3: edges (A,B,1), (B,C,2), (A,C,10). -/
def dijkstraExample : GraphMap Nat Nat :=
  (((GraphMap.new Nat Nat).add_edge (1, 2) 1).add_edge (2, 3) 2).add_edge (1, 3) 10

/-- A small well-formed graph for witnesses: vertices 0 and 1, edge (0, 1). -/
def c3g : Graph Nat Nat :=
  (((Graph.new Nat Nat).add_vertex 10).2.add_vertex 20).2.add_edge (0, 1) 5

section BfsMachinery

variable {V E : Type} [DecidableEq V]

theorem edgeRel_mem (g : GraphMap V E) {a b : V} (h : edgeRel g a b) :
    a ∈ g.vertices ∧ b ∈ g.vertices := by
  unfold edgeRel GraphMap.get_edge at h
  cases ha : alookup g.map a with
  | none => rw [ha] at h; simp at h
  | some ia =>
    cases hb : alookup g.map b with
    | none => rw [ha, hb] at h; simp at h
    | some ib =>
      constructor
      · exact alookup_isSome_iff_mem_keys.mp (by rw [ha]; rfl)
      · exact alookup_isSome_iff_mem_keys.mp (by rw [hb]; rfl)

theorem reach_mem_vertices (g : GraphMap V E) {a b : V}
    (ha : a ∈ g.vertices) (h : Reach g a b) : b ∈ g.vertices := by
  induction h with
  | refl => exact ha
  | tail _ hrel _ => exact (edgeRel_mem g hrel).2

theorem adjPairs_ok {E' : Type} (lk : VertexId → Option E') (s : List VertexId)
    (h : ∀ t ∈ s, (lk t).isSome = true) :
    ∃ l, Graph.adjPairs lk s = some l ∧
      (∀ q ∈ l, q.1 ∈ s ∧ lk q.1 = some q.2) ∧
      (∀ t ∈ s, ∃ e, (t, e) ∈ l) := by
  induction s with
  | nil => exact ⟨[], rfl, by simp, by simp⟩
  | cons t rest ih =>
    obtain ⟨e, he⟩ := Option.isSome_iff_exists.mp (h t (List.mem_cons_self _ _))
    obtain ⟨l, hl, hmem, hall⟩ := ih (fun x hx => h x (List.mem_cons_of_mem _ hx))
    refine ⟨(t, e) :: l, ?_, ?_, ?_⟩
    · simp only [Graph.adjPairs, he, hl]
    · intro q hq
      rcases List.mem_cons.mp hq with h1 | h1
      · rw [h1]
        exact ⟨List.mem_cons_self _ _, he⟩
      · obtain ⟨h2, h3⟩ := hmem q h1
        exact ⟨List.mem_cons_of_mem _ h2, h3⟩
    · intro x hx
      rcases List.mem_cons.mp hx with h1 | h1
      · exact ⟨e, by rw [h1]; exact List.mem_cons_self _ _⟩
      · obtain ⟨e', he'⟩ := hall x h1
        exact ⟨e', List.mem_cons_of_mem _ he'⟩

theorem payloadPairs_ok (gr : Graph V E) (l : List (VertexId × E))
    (h : ∀ q ∈ l, (alookup gr.arena q.1).isSome = true) :
    ∃ l', GraphMap.payloadPairs gr l = some l' ∧
      (∀ r ∈ l', ∃ q ∈ l, alookup gr.arena q.1 = some r.1 ∧ q.2 = r.2) ∧
      (∀ q ∈ l, ∀ p, alookup gr.arena q.1 = some p → (p, q.2) ∈ l') := by
  induction l with
  | nil => exact ⟨[], rfl, by simp, by simp⟩
  | cons q rest ih =>
    obtain ⟨p, hp⟩ := Option.isSome_iff_exists.mp (h q (List.mem_cons_self _ _))
    obtain ⟨l', hl', hmem, hall⟩ := ih (fun x hx => h x (List.mem_cons_of_mem _ hx))
    have hgv : gr.get_vertex q.1 = some p := hp
    refine ⟨(p, q.2) :: l', ?_, ?_, ?_⟩
    · show GraphMap.payloadPairs gr ((q.1, q.2) :: rest) = some ((p, q.2) :: l')
      simp only [GraphMap.payloadPairs, hgv, hl']
    · intro r hr
      rcases List.mem_cons.mp hr with h1 | h1
      · exact ⟨q, List.mem_cons_self _ _, by rw [h1]; exact hp, by rw [h1]⟩
      · obtain ⟨q', hq', h2, h3⟩ := hmem r h1
        exact ⟨q', List.mem_cons_of_mem _ hq', h2, h3⟩
    · intro x hx p' hp'
      rcases List.mem_cons.mp hx with h1 | h1
      · rw [h1] at hp'
        rw [hp'] at hp
        injection hp with hpp
        rw [h1, hpp]
        exact List.mem_cons_self _ _
      · exact List.mem_cons_of_mem _ (hall x h1 p' hp')

theorem adj_out_ok (g : GraphMap V E) (a : V)
    (hwf : WFM g) (ha : a ∈ g.vertices) :
    ∃ l, g.adj_out a = .ok l ∧
      (∀ q ∈ l, q.1 ∈ g.vertices) ∧
      (∀ b : V, (∃ e, (b, e) ∈ l) ↔ edgeRel g a b) := by
  obtain ⟨w1, w2, w3a, w3b, w4, w5⟩ := hwf
  obtain ⟨ia, hia⟩ := Option.isSome_iff_exists.mp (alookup_isSome_iff_mem_keys.mpr ha)
  obtain ⟨hobs, _⟩ := w5 (a, ia) (mem_of_alookup_some hia)
  obtain ⟨s, hs⟩ := Option.isSome_iff_exists.mp hobs
  have hedges : ∀ t ∈ s, (alookup g.graph.edges (ia, t)).isSome = true :=
    fun t ht => w3b (ia, s) (mem_of_alookup_some hs) t ht
  obtain ⟨l0, hl0, hl0mem, hl0all⟩ :=
    adjPairs_ok (fun t => alookup g.graph.edges (ia, t)) s hedges
  have harena : ∀ q ∈ l0, (alookup g.graph.arena q.1).isSome = true := by
    intro q hq
    obtain ⟨_, h2⟩ := hl0mem q hq
    exact (w4 ((ia, q.1), q.2) (mem_of_alookup_some h2)).2
  obtain ⟨l', hl', hmem, hall⟩ := payloadPairs_ok g.graph l0 harena
  have hga : g.graph.adj_out ia = .ok l0 := by
    simp only [Graph.adj_out, hs, hl0]
  have hout : g.adj_out a = .ok l' := by
    simp only [GraphMap.adj_out, hia, hga, hl']
  refine ⟨l', hout, ?_, ?_⟩
  · intro q hq
    obtain ⟨q0, _, h2, _⟩ := hmem q hq
    have := w2 (q0.1, q.1) (mem_of_alookup_some h2)
    exact alookup_isSome_iff_mem_keys.mp (by rw [this]; rfl)
  · intro b
    constructor
    · rintro ⟨e, he⟩
      obtain ⟨q0, hq0, h2, h3⟩ := hmem (b, e) he
      obtain ⟨hq0s, hq0e⟩ := hl0mem q0 hq0
      have hmb : alookup g.map b = some q0.1 := w2 (q0.1, b) (mem_of_alookup_some h2)
      unfold edgeRel
      simp only [GraphMap.get_edge, hia, hmb, Graph.get_edge, hq0e, Option.isSome_some]
    · intro hrel
      unfold edgeRel GraphMap.get_edge at hrel
      rw [hia] at hrel
      cases hb : alookup g.map b with
      | none => rw [hb] at hrel; simp at hrel
      | some ib =>
        rw [hb] at hrel
        obtain ⟨e, he⟩ := Option.isSome_iff_exists.mp hrel
        have hmemadj := (w3a ((ia, ib), e) (mem_of_alookup_some he)).1
        rw [hs] at hmemadj
        obtain ⟨e', he'⟩ := hl0all ib hmemadj
        have hba : alookup g.graph.arena ib = some b :=
          w1 (b, ib) (mem_of_alookup_some hb)
        exact ⟨e', hall (ib, e') he' b hba⟩

theorem enqueueAll_fst_mem (l : List (V × E)) (vis q : List V) (x : V) :
    x ∈ (GraphMap.enqueueAll l vis q).1 ↔ x ∈ vis ∨ ∃ e, (x, e) ∈ l := by
  induction l generalizing vis q with
  | nil => simp [GraphMap.enqueueAll]
  | cons p t ih =>
    obtain ⟨v, e⟩ := p
    by_cases hv : v ∈ vis
    · rw [show GraphMap.enqueueAll ((v, e) :: t) vis q = GraphMap.enqueueAll t vis q
        from by simp [GraphMap.enqueueAll, hv]]
      rw [ih]
      constructor
      · rintro (h | ⟨e', h⟩)
        · exact Or.inl h
        · exact Or.inr ⟨e', List.mem_cons_of_mem _ h⟩
      · rintro (h | ⟨e', h⟩)
        · exact Or.inl h
        · rcases List.mem_cons.mp h with h1 | h1
          · injection h1 with h2 h3
            rw [h2]
            exact Or.inl hv
          · exact Or.inr ⟨e', h1⟩
    · rw [show GraphMap.enqueueAll ((v, e) :: t) vis q =
        GraphMap.enqueueAll t (vis ++ [v]) (q ++ [v])
        from by simp [GraphMap.enqueueAll, hv]]
      rw [ih]
      constructor
      · rintro (h | ⟨e', h⟩)
        · rcases List.mem_append.mp h with h1 | h1
          · exact Or.inl h1
          · simp at h1
            exact Or.inr ⟨e, by rw [h1]; exact List.mem_cons_self _ _⟩
        · exact Or.inr ⟨e', List.mem_cons_of_mem _ h⟩
      · rintro (h | ⟨e', h⟩)
        · exact Or.inl (List.mem_append.mpr (Or.inl h))
        · rcases List.mem_cons.mp h with h1 | h1
          · injection h1 with h2 h3
            exact Or.inl (List.mem_append.mpr (Or.inr (by simp [h2])))
          · exact Or.inr ⟨e', h1⟩

theorem enqueueAll_snd_mem (l : List (V × E)) (vis q : List V) (x : V) :
    x ∈ (GraphMap.enqueueAll l vis q).2 ↔
      x ∈ q ∨ ((∃ e, (x, e) ∈ l) ∧ x ∉ vis) := by
  induction l generalizing vis q with
  | nil => simp [GraphMap.enqueueAll]
  | cons p t ih =>
    obtain ⟨v, e⟩ := p
    by_cases hv : v ∈ vis
    · rw [show GraphMap.enqueueAll ((v, e) :: t) vis q = GraphMap.enqueueAll t vis q
        from by simp [GraphMap.enqueueAll, hv]]
      rw [ih]
      constructor
      · rintro (h | ⟨⟨e', h⟩, hnv⟩)
        · exact Or.inl h
        · exact Or.inr ⟨⟨e', List.mem_cons_of_mem _ h⟩, hnv⟩
      · rintro (h | ⟨⟨e', h⟩, hnv⟩)
        · exact Or.inl h
        · rcases List.mem_cons.mp h with h1 | h1
          · injection h1 with h2 h3
            rw [h2] at hnv
            exact absurd hv hnv
          · exact Or.inr ⟨⟨e', h1⟩, hnv⟩
    · rw [show GraphMap.enqueueAll ((v, e) :: t) vis q =
        GraphMap.enqueueAll t (vis ++ [v]) (q ++ [v])
        from by simp [GraphMap.enqueueAll, hv]]
      rw [ih]
      constructor
      · rintro (h | ⟨⟨e', h⟩, hnv⟩)
        · rcases List.mem_append.mp h with h1 | h1
          · exact Or.inl h1
          · simp at h1
            exact Or.inr ⟨⟨e, by rw [h1]; exact List.mem_cons_self _ _⟩,
              by rw [h1]; exact hv⟩
        · refine Or.inr ⟨⟨e', List.mem_cons_of_mem _ h⟩, fun hx => hnv ?_⟩
          exact List.mem_append.mpr (Or.inl hx)
      · rintro (h | ⟨⟨e', h⟩, hnv⟩)
        · exact Or.inl (List.mem_append.mpr (Or.inl h))
        · rcases List.mem_cons.mp h with h1 | h1
          · injection h1 with h2 h3
            exact Or.inl (List.mem_append.mpr (Or.inr (by simp [h2])))
          · by_cases hxv : x = v
            · exact Or.inl (List.mem_append.mpr (Or.inr (by simp [hxv])))
            · refine Or.inr ⟨⟨e', h1⟩, fun hx => ?_⟩
              rcases List.mem_append.mp hx with h2 | h2
              · exact hnv h2
              · simp at h2
                exact hxv h2

theorem enqueueAll_fst_nodup (l : List (V × E)) (vis q : List V)
    (h : vis.Nodup) : (GraphMap.enqueueAll l vis q).1.Nodup := by
  induction l generalizing vis q with
  | nil => exact h
  | cons p t ih =>
    obtain ⟨v, e⟩ := p
    by_cases hv : v ∈ vis
    · rw [show GraphMap.enqueueAll ((v, e) :: t) vis q = GraphMap.enqueueAll t vis q
        from by simp [GraphMap.enqueueAll, hv]]
      exact ih _ _ h
    · rw [show GraphMap.enqueueAll ((v, e) :: t) vis q =
        GraphMap.enqueueAll t (vis ++ [v]) (q ++ [v])
        from by simp [GraphMap.enqueueAll, hv]]
      refine ih _ _ ?_
      rw [List.nodup_append]
      exact ⟨h, List.nodup_singleton _, fun a ha hb => by
        simp at hb
        rw [hb] at ha
        exact hv ha⟩

theorem enqueueAll_snd_nodup (l : List (V × E)) (vis q : List V)
    (hv : vis.Nodup) (hq : q.Nodup) (hsub : ∀ x ∈ q, x ∈ vis) :
    (GraphMap.enqueueAll l vis q).2.Nodup := by
  induction l generalizing vis q with
  | nil => exact hq
  | cons p t ih =>
    obtain ⟨v, e⟩ := p
    by_cases hvv : v ∈ vis
    · rw [show GraphMap.enqueueAll ((v, e) :: t) vis q = GraphMap.enqueueAll t vis q
        from by simp [GraphMap.enqueueAll, hvv]]
      exact ih _ _ hv hq hsub
    · rw [show GraphMap.enqueueAll ((v, e) :: t) vis q =
        GraphMap.enqueueAll t (vis ++ [v]) (q ++ [v])
        from by simp [GraphMap.enqueueAll, hvv]]
      refine ih _ _ ?_ ?_ ?_
      · rw [List.nodup_append]
        exact ⟨hv, List.nodup_singleton _, fun a ha hb => by
          simp at hb
          rw [hb] at ha
          exact hvv ha⟩
      · rw [List.nodup_append]
        exact ⟨hq, List.nodup_singleton _, fun a ha hb => by
          simp at hb
          rw [hb] at ha
          exact hvv (hsub _ ha)⟩
      · intro x hx
        rcases List.mem_append.mp hx with h1 | h1
        · exact List.mem_append.mpr (Or.inl (hsub x h1))
        · exact List.mem_append.mpr (Or.inr h1)

theorem enqueueAll_length (l : List (V × E)) (vis q : List V) :
    (GraphMap.enqueueAll l vis q).1.length + q.length =
      (GraphMap.enqueueAll l vis q).2.length + vis.length := by
  induction l generalizing vis q with
  | nil => simp [GraphMap.enqueueAll]; omega
  | cons p t ih =>
    obtain ⟨v, e⟩ := p
    by_cases hv : v ∈ vis
    · rw [show GraphMap.enqueueAll ((v, e) :: t) vis q = GraphMap.enqueueAll t vis q
        from by simp [GraphMap.enqueueAll, hv]]
      exact ih _ _
    · rw [show GraphMap.enqueueAll ((v, e) :: t) vis q =
        GraphMap.enqueueAll t (vis ++ [v]) (q ++ [v])
        from by simp [GraphMap.enqueueAll, hv]]
      have := ih (vis ++ [v]) (q ++ [v])
      simp only [List.length_append, List.length_singleton] at this ⊢
      omega

theorem bfsAux_correct (g : GraphMap V E) (start : V) (hwf : WFM g) :
    ∀ (fuel : Nat) (queue visited nodes : List V),
    visited.Nodup →
    (∀ x ∈ queue, x ∈ visited) →
    (∀ x ∈ visited, x ∈ g.vertices) →
    (∀ x, x ∈ visited ↔ x ∈ nodes ∨ x ∈ queue) →
    queue.Nodup →
    (∀ x ∈ queue, x ∉ nodes) →
    nodes.Nodup →
    (∀ u ∈ nodes, ∀ w, edgeRel g u w → w ∈ visited) →
    (∀ x ∈ visited, Reach g start x) →
    g.vertices.length + queue.length + 1 ≤ fuel + visited.length →
    ∃ res, GraphMap.bfsAux g fuel queue visited nodes = .ok res ∧
      res.Nodup ∧
      (∀ x ∈ res, Reach g start x) ∧
      (∀ x ∈ visited, x ∈ res) ∧
      (∀ u ∈ res, ∀ w, edgeRel g u w → w ∈ res) := by
  intro fuel
  induction fuel with
  | zero =>
    intro queue visited nodes h1 h2 h3 h4 h5 h6 h7 h8 h9 h10
    cases queue with
    | nil =>
      refine ⟨nodes, rfl, h7, ?_, ?_, ?_⟩
      · intro x hx
        exact h9 x ((h4 x).mpr (Or.inl hx))
      · intro x hx
        rcases (h4 x).mp hx with h | h
        · exact h
        · simp at h
      · intro u hu w hw
        have hwv := h8 u hu w hw
        rcases (h4 w).mp hwv with h | h
        · exact h
        · simp at h
    | cons cur rest =>
      exfalso
      have hlen : visited.length ≤ g.vertices.length :=
        List.Subperm.length_le (List.subperm_of_subset h1 (fun x hx => h3 x hx))
      simp only [List.length_cons] at h10
      omega
  | succ f ih =>
    intro queue visited nodes h1 h2 h3 h4 h5 h6 h7 h8 h9 h10
    cases queue with
    | nil =>
      refine ⟨nodes, rfl, h7, ?_, ?_, ?_⟩
      · intro x hx
        exact h9 x ((h4 x).mpr (Or.inl hx))
      · intro x hx
        rcases (h4 x).mp hx with h | h
        · exact h
        · simp at h
      · intro u hu w hw
        have hwv := h8 u hu w hw
        rcases (h4 w).mp hwv with h | h
        · exact h
        · simp at h
    | cons cur rest =>
      have hcurvis : cur ∈ visited := h2 cur (List.mem_cons_self _ _)
      have hcurv : cur ∈ g.vertices := h3 cur hcurvis
      obtain ⟨l, hadj, hlv, hlrel⟩ := adj_out_ok g cur hwf hcurv
      rcases hE : GraphMap.enqueueAll l visited rest with ⟨vis', q'⟩
      have hfst := fun x => enqueueAll_fst_mem l visited rest x
      have hsnd := fun x => enqueueAll_snd_mem l visited rest x
      rw [hE] at hfst hsnd
      have hstep : GraphMap.bfsAux g (f + 1) (cur :: rest) visited nodes =
          GraphMap.bfsAux g f q' vis' (nodes ++ [cur]) := by
        simp only [GraphMap.bfsAux, hadj, hE]
      have hrestvis : ∀ x ∈ rest, x ∈ visited :=
        fun x hx => h2 x (List.mem_cons_of_mem _ hx)
      have hcurnrest : cur ∉ rest := (List.nodup_cons.mp h5).1
      have hrestnodup : rest.Nodup := (List.nodup_cons.mp h5).2
      have I1 : vis'.Nodup := by
        have := enqueueAll_fst_nodup l visited rest h1
        rw [hE] at this
        exact this
      have I2 : ∀ x ∈ q', x ∈ vis' := by
        intro x hx
        rcases (hsnd x).mp hx with h | ⟨he, hnv⟩
        · exact (hfst x).mpr (Or.inl (hrestvis x h))
        · exact (hfst x).mpr (Or.inr he)
      have I3 : ∀ x ∈ vis', x ∈ g.vertices := by
        intro x hx
        rcases (hfst x).mp hx with h | ⟨e, he⟩
        · exact h3 x h
        · exact hlv (x, e) he
      have I4 : ∀ x, x ∈ vis' ↔ x ∈ nodes ++ [cur] ∨ x ∈ q' := by
        intro x
        constructor
        · intro hx
          rcases (hfst x).mp hx with h | ⟨e, he⟩
          · rcases (h4 x).mp h with h' | h'
            · exact Or.inl (List.mem_append.mpr (Or.inl h'))
            · rcases List.mem_cons.mp h' with h'' | h''
              · exact Or.inl (List.mem_append.mpr (Or.inr (by simp [h''])))
              · exact Or.inr ((hsnd x).mpr (Or.inl h''))
          · by_cases hxv : x ∈ visited
            · rcases (h4 x).mp hxv with h' | h'
              · exact Or.inl (List.mem_append.mpr (Or.inl h'))
              · rcases List.mem_cons.mp h' with h'' | h''
                · exact Or.inl (List.mem_append.mpr (Or.inr (by simp [h''])))
                · exact Or.inr ((hsnd x).mpr (Or.inl h''))
            · exact Or.inr ((hsnd x).mpr (Or.inr ⟨⟨e, he⟩, hxv⟩))
        · intro hx
          rcases hx with h | h
          · rcases List.mem_append.mp h with h' | h'
            · exact (hfst x).mpr (Or.inl ((h4 x).mpr (Or.inl h')))
            · simp at h'
              rw [h']
              exact (hfst cur).mpr (Or.inl hcurvis)
          · exact I2 x h
      have I5 : q'.Nodup := by
        have := enqueueAll_snd_nodup l visited rest h1 hrestnodup hrestvis
        rw [hE] at this
        exact this
      have I6 : ∀ x ∈ q', x ∉ nodes ++ [cur] := by
        intro x hx hmem
        rcases (hsnd x).mp hx with h | ⟨_, hnv⟩
        · rcases List.mem_append.mp hmem with h' | h'
          · exact h6 x (List.mem_cons_of_mem _ h) h'
          · simp at h'
            rw [h'] at h
            exact hcurnrest h
        · rcases List.mem_append.mp hmem with h' | h'
          · exact hnv ((h4 x).mpr (Or.inl h'))
          · simp at h'
            rw [h'] at hnv
            exact hnv hcurvis
      have I7 : (nodes ++ [cur]).Nodup := by
        rw [List.nodup_append]
        exact ⟨h7, List.nodup_singleton _, fun a ha hb => by
          simp at hb
          rw [hb] at ha
          exact h6 cur (List.mem_cons_self _ _) ha⟩
      have I8 : ∀ u ∈ nodes ++ [cur], ∀ w, edgeRel g u w → w ∈ vis' := by
        intro u hu w hw
        rcases List.mem_append.mp hu with h | h
        · exact (hfst w).mpr (Or.inl (h8 u h w hw))
        · simp at h
          rw [h] at hw
          exact (hfst w).mpr (Or.inr ((hlrel w).mpr hw))
      have I9 : ∀ x ∈ vis', Reach g start x := by
        intro x hx
        rcases (hfst x).mp hx with h | ⟨e, he⟩
        · exact h9 x h
        · exact Relation.ReflTransGen.tail (h9 cur hcurvis) ((hlrel x).mp ⟨e, he⟩)
      have I10 : g.vertices.length + q'.length + 1 ≤ f + vis'.length := by
        have hlen := enqueueAll_length l visited rest
        rw [hE] at hlen
        have hlen' : vis'.length + rest.length = q'.length + visited.length := hlen
        simp only [List.length_cons] at h10
        omega
      obtain ⟨res, hres, hnodup, hreach, hsub, hclosed⟩ :=
        ih q' vis' (nodes ++ [cur]) I1 I2 I3 I4 I5 I6 I7 I8 I9 I10
      refine ⟨res, by rw [hstep]; exact hres, hnodup, hreach, ?_, hclosed⟩
      intro x hx
      exact hsub x ((hfst x).mpr (Or.inl hx))

theorem bfs_ok (g : GraphMap V E) (start : V) (hwf : WFM g)
    (hstart : start ∈ g.vertices) :
    ∃ res, g.bfs start = .ok res ∧ res.Nodup ∧
      (∀ x, x ∈ res ↔ Reach g start x) := by
  obtain ⟨res, hres, hnodup, hreach, hsub, hclosed⟩ :=
    bfsAux_correct g start hwf (g.map.length + 1) [start] [start] []
      (List.nodup_singleton _)
      (fun x hx => hx)
      (fun x hx => by simp at hx; rw [hx]; exact hstart)
      (fun x => by simp)
      (List.nodup_singleton _)
      (fun x hx => by simp)
      List.nodup_nil
      (fun u hu => by simp at hu)
      (fun x hx => by simp at hx; rw [hx]; exact Relation.ReflTransGen.refl)
      (by
        have hlen : g.vertices.length = g.map.length := List.length_map _ _
        simp only [List.length_singleton]
        omega)
  refine ⟨res, hres, hnodup, ?_⟩
  intro x
  constructor
  · exact hreach x
  · intro hr
    have hstartres : start ∈ res := hsub start (List.mem_cons_self _ _)
    induction hr with
    | refl => exact hstartres
    | tail h1 hrel ihh => exact hclosed _ ihh _ hrel

end BfsMachinery

section CcMachinery

variable {V E : Type} [DecidableEq V]

theorem vertices_add_or_get (g : GraphMap V E) (p : V) (x : V) :
    x ∈ (g.add_or_get_vertex p).2.vertices ↔ x ∈ g.vertices ∨ x = p := by
  unfold GraphMap.add_or_get_vertex
  cases h : alookup g.map p with
  | some id =>
    simp only
    constructor
    · exact Or.inl
    · rintro (h1 | h1)
      · exact h1
      · rw [h1]
        exact alookup_isSome_iff_mem_keys.mp (by rw [h]; rfl)
  | none =>
    show x ∈ (ainsert g.map p _).map Prod.fst ↔ _
    rw [mem_keys_ainsert]
    rfl

theorem vertices_add_vertex (g : GraphMap V E) (p : V) (x : V) :
    x ∈ (g.add_vertex p).vertices ↔ x ∈ g.vertices ∨ x = p := by
  unfold GraphMap.add_vertex
  cases h : alookup g.map p with
  | some id =>
    simp only
    constructor
    · exact Or.inl
    · rintro (h1 | h1)
      · exact h1
      · rw [h1]
        exact alookup_isSome_iff_mem_keys.mp (by rw [h]; rfl)
  | none =>
    show x ∈ (ainsert g.map p _).map Prod.fst ↔ _
    rw [mem_keys_ainsert]
    rfl

theorem vertices_add_edge (g : GraphMap V E) (a b : V) (w : E) (x : V) :
    x ∈ (g.add_edge (a, b) w).vertices ↔ x ∈ g.vertices ∨ x = a ∨ x = b := by
  have h1 : (g.add_edge (a, b) w).vertices =
      ((g.add_or_get_vertex a).2.add_or_get_vertex b).2.vertices := rfl
  rw [h1, vertices_add_or_get, vertices_add_or_get]
  tauto

theorem fold_edges_super (node : V) (l : List (V × E)) (acc : GraphMap V E)
    (x : V) (hx : x ∈ acc.vertices) :
    x ∈ (l.foldl (fun a p => a.add_edge (node, p.1) p.2) acc).vertices := by
  induction l generalizing acc with
  | nil => exact hx
  | cons p t ih =>
    exact ih _ ((vertices_add_edge acc node p.1 p.2 x).mpr (Or.inl hx))

theorem fold_edges_sub (node : V) (l : List (V × E)) (acc : GraphMap V E)
    (x : V) (hx : x ∈ (l.foldl (fun a p => a.add_edge (node, p.1) p.2) acc).vertices) :
    x ∈ acc.vertices ∨ x = node ∨ ∃ e, (x, e) ∈ l := by
  induction l generalizing acc with
  | nil => exact Or.inl hx
  | cons p t ih =>
    rcases ih _ hx with h | h | ⟨e, he⟩
    · rcases (vertices_add_edge acc node p.1 p.2 x).mp h with h1 | h1 | h1
      · exact Or.inl h1
      · exact Or.inr (Or.inl h1)
      · exact Or.inr (Or.inr ⟨p.2, by rw [h1]; exact List.mem_cons_self _ _⟩)
    · exact Or.inr (Or.inl h)
    · exact Or.inr (Or.inr ⟨e, List.mem_cons_of_mem _ he⟩)

theorem ccBuild_ok (g : GraphMap V E) (hwf : WFM g) :
    ∀ (comp vis : List V) (acc : GraphMap V E),
    (∀ x ∈ comp, x ∈ g.vertices) →
    ∃ vis' acc', GraphMap.ccBuild g comp vis acc = .ok (vis', acc') ∧
      (∀ x, x ∈ vis' ↔ x ∈ vis ∨ x ∈ comp) ∧
      (∀ x ∈ comp, x ∈ acc'.vertices) ∧
      (∀ x ∈ acc'.vertices, x ∈ acc.vertices ∨ x ∈ g.vertices) ∧
      (∀ x ∈ acc.vertices, x ∈ acc'.vertices) := by
  intro comp
  induction comp with
  | nil =>
    intro vis acc _
    exact ⟨vis, acc, rfl, by simp, by simp, fun x hx => Or.inl hx, fun x hx => hx⟩
  | cons node rest ih =>
    intro vis acc hsub
    have hnodev : node ∈ g.vertices := hsub node (List.mem_cons_self _ _)
    obtain ⟨l, hadj, hlv, hlrel⟩ := adj_out_ok g node hwf hnodev
    have hstep : GraphMap.ccBuild g (node :: rest) vis acc =
        GraphMap.ccBuild g rest (sinsert vis node)
          (l.foldl (fun a p => a.add_edge (node, p.1) p.2) (acc.add_vertex node)) := by
      simp only [GraphMap.ccBuild, hadj]
    obtain ⟨vis', acc', hbuild, hv, hc, hs, hm⟩ :=
      ih (sinsert vis node)
        (l.foldl (fun a p => a.add_edge (node, p.1) p.2) (acc.add_vertex node))
        (fun x hx => hsub x (List.mem_cons_of_mem _ hx))
    refine ⟨vis', acc', by rw [hstep]; exact hbuild, ?_, ?_, ?_, ?_⟩
    · intro x
      rw [hv x, mem_sinsert]
      constructor
      · rintro ((h | h) | h)
        · exact Or.inl h
        · exact Or.inr (by rw [h]; exact List.mem_cons_self _ _)
        · exact Or.inr (List.mem_cons_of_mem _ h)
      · rintro (h | h)
        · exact Or.inl (Or.inl h)
        · rcases List.mem_cons.mp h with h1 | h1
          · exact Or.inl (Or.inr h1)
          · exact Or.inr h1
    · intro x hx
      rcases List.mem_cons.mp hx with h1 | h1
      · rw [h1]
        refine hm node (fold_edges_super node l (acc.add_vertex node) node ?_)
        exact (vertices_add_vertex acc node node).mpr (Or.inr rfl)
      · exact hc x h1
    · intro x hx
      rcases hs x hx with h | h
      · rcases fold_edges_sub node l (acc.add_vertex node) x h with h1 | h1 | ⟨e, he⟩
        · rcases (vertices_add_vertex acc node x).mp h1 with h2 | h2
          · exact Or.inl h2
          · exact Or.inr (by rw [h2]; exact hnodev)
        · exact Or.inr (by rw [h1]; exact hnodev)
        · exact Or.inr (hlv (x, e) he)
      · exact Or.inr h
    · intro x hx
      refine hm x (fold_edges_super node l (acc.add_vertex node) x ?_)
      exact (vertices_add_vertex acc node x).mpr (Or.inl hx)

theorem ccLoop_ok (g : GraphMap V E) (hwf : WFM g) :
    ∀ (vs vis : List V) (comps : List (GraphMap V E)),
    (∀ x ∈ vs, x ∈ g.vertices) →
    (∀ x ∈ vis, ∃ c ∈ comps, x ∈ c.vertices) →
    (∀ c ∈ comps, ∀ x ∈ c.vertices, x ∈ g.vertices) →
    ∃ comps', GraphMap.ccLoop g vs vis comps = .ok comps' ∧
      (∀ x ∈ vs, ∃ c ∈ comps', x ∈ c.vertices) ∧
      (∀ c ∈ comps', ∀ x ∈ c.vertices, x ∈ g.vertices) ∧
      (∀ c ∈ comps, c ∈ comps') := by
  intro vs
  induction vs with
  | nil =>
    intro vis comps _ _ h3
    exact ⟨comps, rfl, by simp, h3, fun c hc => hc⟩
  | cons v rest ih =>
    intro vis comps h1 h2 h3
    have hvv : v ∈ g.vertices := h1 v (List.mem_cons_self _ _)
    by_cases hvis : v ∈ vis
    · have hstep : GraphMap.ccLoop g (v :: rest) vis comps =
          GraphMap.ccLoop g rest vis comps := by
        simp only [GraphMap.ccLoop, if_pos hvis]
      obtain ⟨comps', hloop, hcov, hsub, hmono⟩ :=
        ih vis comps (fun x hx => h1 x (List.mem_cons_of_mem _ hx)) h2 h3
      refine ⟨comps', by rw [hstep]; exact hloop, ?_, hsub, hmono⟩
      intro x hx
      rcases List.mem_cons.mp hx with h | h
      · obtain ⟨c, hc, hxc⟩ := h2 v hvis
        exact ⟨c, hmono c hc, by rw [h]; exact hxc⟩
      · exact hcov x h
    · obtain ⟨comp, hbfs, hnodup, hmem⟩ := bfs_ok g v hwf hvv
      have hcompv : ∀ x ∈ comp, x ∈ g.vertices := fun x hx =>
        reach_mem_vertices g hvv ((hmem x).mp hx)
      obtain ⟨vis', cg, hbuild, hv, hc, hs, _⟩ :=
        ccBuild_ok g hwf comp vis (GraphMap.new V E) hcompv
      have hstep : GraphMap.ccLoop g (v :: rest) vis comps =
          GraphMap.ccLoop g rest vis' (comps ++ [cg]) := by
        simp only [GraphMap.ccLoop, if_neg hvis, hbfs, hbuild]
      have hcg_sub : ∀ x ∈ cg.vertices, x ∈ g.vertices := by
        intro x hx
        rcases hs x hx with h | h
        · simp [GraphMap.new, GraphMap.vertices, Graph.new] at h
        · exact h
      obtain ⟨comps', hloop, hcov, hsub, hmono⟩ :=
        ih vis' (comps ++ [cg])
          (fun x hx => h1 x (List.mem_cons_of_mem _ hx))
          (by
            intro x hx
            rcases (hv x).mp hx with h | h
            · obtain ⟨c, hcc, hxc⟩ := h2 x h
              exact ⟨c, List.mem_append.mpr (Or.inl hcc), hxc⟩
            · exact ⟨cg, List.mem_append.mpr (Or.inr (List.mem_cons_self _ _)), hc x h⟩)
          (by
            intro c hcc x hx
            rcases List.mem_append.mp hcc with h | h
            · exact h3 c h x hx
            · simp at h
              rw [h] at hx
              exact hcg_sub x hx)
      refine ⟨comps', by rw [hstep]; exact hloop, ?_, hsub, ?_⟩
      · intro x hx
        rcases List.mem_cons.mp hx with h | h
        · refine ⟨cg, hmono cg (List.mem_append.mpr (Or.inr (List.mem_cons_self _ _))), ?_⟩
          rw [h]
          exact hc v ((hmem v).mpr Relation.ReflTransGen.refl)
        · exact hcov x h
      · intro c hcc
        exact hmono c (List.mem_append.mpr (Or.inl hcc))

end CcMachinery

/-- A small graph for the BFS witness: edges (1,2) and (2,3). -/
def bfsExample : GraphMap Nat Nat :=
  ((GraphMap.new Nat Nat).add_edge (1, 2) 5).add_edge (2, 3) 7

/-- C6: for every well-formed graph containing the start payload, `bfs`
returns normally and its result contains each vertex reachable from the
start via outbound edges exactly once (the list has no duplicates and
its members are exactly the reachable vertices); the order is the FIFO
dequeue order of the embedded loop. -/
theorem bfs_visits_reachable {V E : Type} [DecidableEq V] (g : GraphMap V E)
    (start : V) (hwf : WFM g) (hstart : start ∈ g.vertices) :
    ∃ res, g.bfs start = .ok res ∧ res.Nodup ∧
      (∀ x, x ∈ res ↔ Reach g start x) :=
  bfs_ok g start hwf hstart

/-- Witness for C6 at the concrete graph with edges (1,2), (2,3). -/
theorem bfs_visits_reachable_witness :
    ∃ res, bfsExample.bfs 1 = Res.ok res ∧ res.Nodup ∧
      (∀ x, x ∈ res ↔ Reach bfsExample 1 x) :=
  bfs_visits_reachable bfsExample 1 (by decide) (by decide)

section DijkstraMachinery

theorem pairMin_cases (a b : Nat × Nat) :
    GraphMap.pairMin a b = a ∨ GraphMap.pairMin a b = b := by
  unfold GraphMap.pairMin
  split_ifs <;> simp

theorem listMinPair_mem (q : List (Nat × Nat)) (m : Nat × Nat)
    (h : GraphMap.listMinPair q = some m) : m ∈ q := by
  induction q generalizing m with
  | nil => simp [GraphMap.listMinPair] at h
  | cons x t ih =>
    cases ht : GraphMap.listMinPair t with
    | none =>
      simp [GraphMap.listMinPair, ht] at h
      rw [← h]
      exact List.mem_cons_self _ _
    | some m' =>
      simp [GraphMap.listMinPair, ht] at h
      rcases pairMin_cases x m' with hc | hc
      · rw [← h, hc]
        exact List.mem_cons_self _ _
      · rw [← h, hc]
        exact List.mem_cons_of_mem _ (ih m' ht)

theorem removeOnce_subset {α : Type} [DecidableEq α] (q : List α) (a x : α)
    (h : x ∈ GraphMap.removeOnce q a) : x ∈ q := by
  induction q with
  | nil => simp [GraphMap.removeOnce] at h
  | cons y t ih =>
    by_cases hy : y = a
    · rw [show GraphMap.removeOnce (y :: t) a = t from by
        simp [GraphMap.removeOnce, hy]] at h
      exact List.mem_cons_of_mem _ h
    · rw [show GraphMap.removeOnce (y :: t) a = y :: GraphMap.removeOnce t a from by
        simp [GraphMap.removeOnce, hy]] at h
      rcases List.mem_cons.mp h with h1 | h1
      · rw [h1]
        exact List.mem_cons_self _ _
      · exact List.mem_cons_of_mem _ (ih h1)

theorem heapPop_inv (q : List (Nat × Nat)) (m : Nat × Nat) (q' : List (Nat × Nat))
    (h : GraphMap.heapPop q = some (m, q')) :
    m ∈ q ∧ ∀ p ∈ q', p ∈ q := by
  unfold GraphMap.heapPop at h
  cases hm : GraphMap.listMinPair q with
  | none => rw [hm] at h; simp at h
  | some m0 =>
    rw [hm] at h
    injection h with h1
    injection h1 with h2 h3
    constructor
    · rw [← h2]
      exact listMinPair_mem q m0 hm
    · intro p hp
      rw [← h3] at hp
      exact removeOnce_subset q m0 p hp

theorem adjPairs_inv {E' : Type} (lk : VertexId → Option E') (s : List VertexId)
    (l0 : List (VertexId × E')) (h : Graph.adjPairs lk s = some l0) :
    ∀ q ∈ l0, lk q.1 = some q.2 := by
  induction s generalizing l0 with
  | nil =>
    injection h with h1
    rw [← h1]
    simp
  | cons t rest ih =>
    cases he : lk t with
    | none => simp [Graph.adjPairs, he] at h
    | some e =>
      cases hrest : Graph.adjPairs lk rest with
      | none => simp [Graph.adjPairs, he, hrest] at h
      | some l' =>
        simp only [Graph.adjPairs, he, hrest] at h
        injection h with h1
        intro q hq
        rw [← h1] at hq
        rcases List.mem_cons.mp hq with h2 | h2
        · rw [h2]
          exact he
        · exact ih l' hrest q h2

theorem payloadPairs_inv {V E : Type} (gr : Graph V E) (l0 : List (VertexId × E))
    (l : List (V × E)) (h : GraphMap.payloadPairs gr l0 = some l) :
    ∀ r ∈ l, ∃ q0 ∈ l0, alookup gr.arena q0.1 = some r.1 ∧ q0.2 = r.2 := by
  induction l0 generalizing l with
  | nil =>
    injection h with h1
    rw [← h1]
    simp
  | cons q rest ih =>
    cases hp : gr.get_vertex q.1 with
    | none =>
      rw [show GraphMap.payloadPairs gr (q :: rest) = none from by
        simp only [GraphMap.payloadPairs]
        rw [show (q : VertexId × E) = (q.1, q.2) from rfl] at hp ⊢
        simp [hp]] at h
      simp at h
    | some p =>
      cases hrest : GraphMap.payloadPairs gr rest with
      | none =>
        rw [show GraphMap.payloadPairs gr (q :: rest) = none from by
          simp only [GraphMap.payloadPairs]
          rw [show (q : VertexId × E) = (q.1, q.2) from rfl] at hp ⊢
          simp [hp, hrest]] at h
        simp at h
      | some l' =>
        rw [show GraphMap.payloadPairs gr (q :: rest) = some ((p, q.2) :: l') from by
          simp only [GraphMap.payloadPairs]
          rw [show (q : VertexId × E) = (q.1, q.2) from rfl] at hp ⊢
          simp [hp, hrest]] at h
        injection h with h1
        intro r hr
        rw [← h1] at hr
        rcases List.mem_cons.mp hr with h2 | h2
        · exact ⟨q, List.mem_cons_self _ _, by rw [h2]; exact hp, by rw [h2]⟩
        · obtain ⟨q0, hq0, h3, h4⟩ := ih l' hrest r h2
          exact ⟨q0, List.mem_cons_of_mem _ hq0, h3, h4⟩

theorem adj_in_members {V E : Type} [DecidableEq V] (g : GraphMap V E) (a : V)
    (l : List (V × E))
    (hw2 : ∀ p ∈ g.graph.arena, alookup g.map p.2 = some p.1)
    (h : g.adj_in a = .ok l) :
    ∀ q ∈ l, edgeRel g q.1 a := by
  cases hma : alookup g.map a with
  | none => simp [GraphMap.adj_in, hma] at h
  | some ia =>
    cases hga : g.graph.adj_in ia with
    | notFound => simp [GraphMap.adj_in, hma, hga] at h
    | panicked => simp [GraphMap.adj_in, hma, hga] at h
    | fuelOut => simp [GraphMap.adj_in, hma, hga] at h
    | ok l0 =>
      cases hpp : GraphMap.payloadPairs g.graph l0 with
      | none => simp [GraphMap.adj_in, hma, hga, hpp] at h
      | some l' =>
        simp only [GraphMap.adj_in, hma, hga, hpp, Res.ok.injEq] at h
        cases hs : alookup g.graph.inbound ia with
        | none => simp [Graph.adj_in, hs] at hga
        | some s =>
          cases hap : Graph.adjPairs (fun t => alookup g.graph.edges (t, ia)) s with
          | none => simp [Graph.adj_in, hs, hap] at hga
          | some l0' =>
            have h2 : l0' = l0 := by
              simp only [Graph.adj_in, hs, hap, Res.ok.injEq] at hga
              exact hga
            intro q hq
            rw [← h] at hq
            obtain ⟨q0, hq0, h3, h4⟩ := payloadPairs_inv g.graph l0 l' hpp q hq
            rw [← h2] at hq0
            have hedge := adjPairs_inv _ s l0' hap q0 hq0
            have hmq : alookup g.map q.1 = some q0.1 :=
              hw2 (q0.1, q.1) (mem_of_alookup_some h3)
            unfold edgeRel
            simp only [GraphMap.get_edge, hmq, hma, Graph.get_edge, hedge,
              Option.isSome_some]

theorem relaxAll_inv (g : GraphMap Nat Nat) (t node : Nat)
    (hnode : Reach g node t) :
    ∀ (l q dist nxt : List (Nat × Nat)),
    (∀ p ∈ l, edgeRel g p.1 node) →
    (∀ p ∈ q, Reach g p.2 t) →
    (∀ p ∈ dist, Reach g p.1 t) →
    ∀ q2 dist2 nxt2, GraphMap.relaxAll node l q dist nxt = .ok (q2, dist2, nxt2) →
      (∀ p ∈ q2, Reach g p.2 t) ∧ (∀ p ∈ dist2, Reach g p.1 t) := by
  intro l
  induction l with
  | nil =>
    intro q dist nxt _ hq hdist q2 dist2 nxt2 h
    simp only [GraphMap.relaxAll, Res.ok.injEq, Prod.mk.injEq] at h
    obtain ⟨h1, h2, _⟩ := h
    rw [← h1, ← h2]
    exact ⟨hq, hdist⟩
  | cons pe rest ih =>
    intro q dist nxt hl hq hdist q2 dist2 nxt2 h
    obtain ⟨prev, cost⟩ := pe
    have hrel : edgeRel g prev node := hl (prev, cost) (List.mem_cons_self _ _)
    have hprevreach : Reach g prev t := Relation.ReflTransGen.head hrel hnode
    have hltail : ∀ p ∈ rest, edgeRel g p.1 node :=
      fun p hp => hl p (List.mem_cons_of_mem _ hp)
    have hqstep : ∀ dn, (∀ p ∈ q ++ [(dn + cost, prev)], Reach g p.2 t) := by
      intro dn p hp
      rcases List.mem_append.mp hp with h1 | h1
      · exact hq p h1
      · simp at h1
        rw [h1]
        exact hprevreach
    have hdstep : ∀ dn, (∀ p ∈ ainsert dist prev (dn + cost), Reach g p.1 t) := by
      intro dn p hp
      rcases mem_ainsert hp with h1 | h1
      · rw [h1]
        exact hprevreach
      · exact hdist p h1
    cases hdp : alookup dist prev with
    | none =>
      cases hdn : alookup dist node with
      | none => simp [GraphMap.relaxAll, hdp, hdn] at h
      | some dn =>
        have hstep : GraphMap.relaxAll node ((prev, cost) :: rest) q dist nxt =
            GraphMap.relaxAll node rest (q ++ [(dn + cost, prev)])
              (ainsert dist prev (dn + cost)) (ainsert nxt prev node) := by
          simp only [GraphMap.relaxAll, hdp, hdn]
        rw [hstep] at h
        exact ih _ _ _ hltail (hqstep dn) (hdstep dn) _ _ _ h
    | some dp =>
      cases hdn : alookup dist node with
      | none => simp [GraphMap.relaxAll, hdp, hdn] at h
      | some dn =>
        by_cases hlt : dn + cost < dp
        · have hstep : GraphMap.relaxAll node ((prev, cost) :: rest) q dist nxt =
              GraphMap.relaxAll node rest (q ++ [(dn + cost, prev)])
                (ainsert dist prev (dn + cost)) (ainsert nxt prev node) := by
            simp only [GraphMap.relaxAll, hdp, hdn, if_pos hlt]
          rw [hstep] at h
          exact ih _ _ _ hltail (hqstep dn) (hdstep dn) _ _ _ h
        · have hstep : GraphMap.relaxAll node ((prev, cost) :: rest) q dist nxt =
              GraphMap.relaxAll node rest q dist nxt := by
            simp only [GraphMap.relaxAll, hdp, hdn, if_neg hlt]
          rw [hstep] at h
          exact ih _ _ _ hltail hq hdist _ _ _ h

theorem dijkstraAux_inv (g : GraphMap Nat Nat) (t : Nat)
    (hw2 : ∀ p ∈ g.graph.arena, alookup g.map p.2 = some p.1) :
    ∀ (fuel : Nat) (q dist nxt : List (Nat × Nat)),
    (∀ p ∈ q, Reach g p.2 t) →
    (∀ p ∈ dist, Reach g p.1 t) →
    ∀ dist2 nxt2, GraphMap.dijkstraAux g fuel q dist nxt = .ok (dist2, nxt2) →
      ∀ p ∈ dist2, Reach g p.1 t := by
  intro fuel
  induction fuel with
  | zero =>
    intro q dist nxt hq hdist dist2 nxt2 h
    cases q with
    | nil =>
      simp only [GraphMap.dijkstraAux, Res.ok.injEq, Prod.mk.injEq] at h
      obtain ⟨h1, _⟩ := h
      rw [← h1]
      exact hdist
    | cons x xt => simp [GraphMap.dijkstraAux] at h
  | succ f ih =>
    intro q dist nxt hq hdist dist2 nxt2 h
    cases q with
    | nil =>
      simp only [GraphMap.dijkstraAux, Res.ok.injEq, Prod.mk.injEq] at h
      obtain ⟨h1, _⟩ := h
      rw [← h1]
      exact hdist
    | cons x xt =>
      cases hpop : GraphMap.heapPop (x :: xt) with
      | none => simp [GraphMap.dijkstraAux, hpop] at h
      | some r =>
        obtain ⟨⟨c, node⟩, q'⟩ := r
        obtain ⟨hmem, hsub⟩ := heapPop_inv _ _ _ hpop
        have hnode : Reach g node t := hq (c, node) hmem
        cases hadj : g.adj_in node with
        | ok l =>
          cases hrel : GraphMap.relaxAll node l q' dist nxt with
          | ok st =>
            obtain ⟨q2, dist1, nxt1⟩ := st
            have hstep : GraphMap.dijkstraAux g (f + 1) (x :: xt) dist nxt =
                GraphMap.dijkstraAux g f q2 dist1 nxt1 := by
              simp only [GraphMap.dijkstraAux, hpop, hadj, hrel]
            rw [hstep] at h
            have hedges := adj_in_members g node l hw2 hadj
            obtain ⟨hq2, hdist1⟩ := relaxAll_inv g t node hnode l q' dist nxt
              hedges (fun p hp => hq p (hsub p hp)) hdist q2 dist1 nxt1 hrel
            exact ih q2 dist1 nxt1 hq2 hdist1 dist2 nxt2 h
          | notFound => simp [GraphMap.dijkstraAux, hpop, hadj, hrel] at h
          | panicked => simp [GraphMap.dijkstraAux, hpop, hadj, hrel] at h
          | fuelOut => simp [GraphMap.dijkstraAux, hpop, hadj, hrel] at h
        | notFound => simp [GraphMap.dijkstraAux, hpop, hadj] at h
        | panicked => simp [GraphMap.dijkstraAux, hpop, hadj] at h
        | fuelOut => simp [GraphMap.dijkstraAux, hpop, hadj] at h

end DijkstraMachinery

/-- The no-path scenario graph: the shortest-path example plus an
isolated vertex D rendered as 4 (no inbound or outbound edges). -/
def c9g : GraphMap Nat Nat := dijkstraExample.add_vertex 4

theorem c9g_no_edge_to_4 : ∀ x, ¬ edgeRel c9g x 4 := by
  intro x h
  unfold edgeRel at h
  cases hx : alookup c9g.map x with
  | none => simp [GraphMap.get_edge, hx] at h
  | some ix =>
    have h4 : alookup c9g.map 4 = some 3 := rfl
    simp only [GraphMap.get_edge, hx, h4, Graph.get_edge] at h
    obtain ⟨w, hw⟩ := Option.isSome_iff_exists.mp h
    have hmem := mem_of_alookup_some hw
    have hE : c9g.graph.edges = [((0, 1), 1), ((1, 2), 2), ((0, 2), 10)] := rfl
    rw [hE] at hmem
    simp at hmem

theorem c9g_not_reach : ¬ Reach c9g 1 4 := by
  intro h
  rcases Relation.ReflTransGen.cases_tail h with h1 | ⟨c, _, hrel⟩
  · exact absurd h1 (by decide)
  · exact c9g_no_edge_to_4 c hrel

/-- C9: when no directed path from `start` reaches `end`, `dijkstra`
reports "no path": (1) for every graph whose arena payloads map back to
their identities, if `start` cannot reach `end` then whenever the call
completes normally its value is `none`; (2) for every graph in which
`end` exists with an empty inbound set, the call completes normally and
returns `none` outright (provided `start ≠ end`). -/
theorem dijkstra_no_path :
    (∀ (g : GraphMap Nat Nat) (s t : Nat),
      (∀ p ∈ g.graph.arena, alookup g.map p.2 = some p.1) →
      ¬ Reach g s t →
      ∀ r, g.dijkstra s t = .ok r → r = none) ∧
    (∀ (g : GraphMap Nat Nat) (s t it : Nat),
      alookup g.map t = some it →
      alookup g.graph.inbound it = some [] →
      s ≠ t →
      g.dijkstra s t = .ok none) := by
  constructor
  · intro g s t hw2 hnr r h
    simp only [GraphMap.dijkstra] at h
    cases haux : GraphMap.dijkstraAux g
        ((g.map.length + 1) * (g.graph.edges.length + 1) + 1)
        [(0, t)] [(t, 0)] [] with
    | ok st =>
      obtain ⟨dist2, nxt2⟩ := st
      have hinv := dijkstraAux_inv g t hw2
        ((g.map.length + 1) * (g.graph.edges.length + 1) + 1)
        [(0, t)] [(t, 0)] []
        (by
          intro p hp
          simp at hp
          rw [hp]
          exact Relation.ReflTransGen.refl)
        (by
          intro p hp
          simp at hp
          rw [hp]
          exact Relation.ReflTransGen.refl)
        dist2 nxt2 haux
      rw [haux] at h
      cases hds : alookup dist2 s with
      | none =>
        simp only [hds, Res.ok.injEq] at h
        exact h.symm
      | some d =>
        exact absurd (hinv (s, d) (mem_of_alookup_some hds)) hnr
    | notFound => rw [haux] at h; simp at h
    | panicked => rw [haux] at h; simp at h
    | fuelOut => rw [haux] at h; simp at h
  · intro g s t it hmt hinb hst
    have hadj : g.adj_in t = .ok [] := by
      simp [GraphMap.adj_in, hmt, Graph.adj_in, hinb, Graph.adjPairs,
        GraphMap.payloadPairs]
    have hpop : GraphMap.heapPop [(0, t)] = some ((0, t), []) := by
      simp [GraphMap.heapPop, GraphMap.listMinPair, GraphMap.removeOnce]
    have hstep1 : GraphMap.dijkstraAux g
        ((g.map.length + 1) * (g.graph.edges.length + 1) + 1)
        [(0, t)] [(t, 0)] [] = .ok ([(t, 0)], []) := by
      simp only [GraphMap.dijkstraAux, hpop, hadj, GraphMap.relaxAll]
    have hds : alookup [((t : Nat), (0 : Nat))] s = none := by
      simp [alookup, Ne.symm hst]
    simp only [GraphMap.dijkstra, hstep1, hds]

/-- Witness for C9 at `c9g` (isolated vertex 4, start 1): both parts of
the theorem applied at the concrete no-path instance. -/
theorem dijkstra_no_path_witness :
    c9g.dijkstra 1 4 = Res.ok none ∧
    (none : Option (List Nat × Nat)) = none :=
  ⟨dijkstra_no_path.2 c9g 1 4 3 rfl rfl (by decide),
   dijkstra_no_path.1 c9g 1 4 (by decide) c9g_not_reach none
     (dijkstra_no_path.2 c9g 1 4 3 rfl rfl (by decide))⟩

/-- The counterexample graph for component disjointness: edges (2,3)
then (1,2), so the vertex iteration order reaches the sink side first. -/
def ccExample : GraphMap Nat Nat :=
  ((GraphMap.new Nat Nat).add_edge (2, 3) 5).add_edge (1, 2) 7

/-- The components computed for `ccExample`. -/
def ccExampleComps : List (GraphMap Nat Nat) :=
  match GraphMap.connected_components ccExample with
  | .ok l => l
  | _ => []

/-- C1 (amended): for every well-formed graph, `connected_components`
returns normally and the union of the component vertex sets equals the
full vertex set; the component vertex sets need not be pairwise
disjoint. -/
theorem connected_components_cover {V E : Type} [DecidableEq V]
    (g : GraphMap V E) (hwf : WFM g) :
    ∃ comps, g.connected_components = .ok comps ∧
      (∀ x, x ∈ g.vertices ↔ ∃ c ∈ comps, x ∈ c.vertices) := by
  obtain ⟨comps, hloop, hcov, hsub, _⟩ :=
    ccLoop_ok g hwf g.vertices [] [] (fun x hx => hx) (by simp) (by simp)
  refine ⟨comps, hloop, ?_⟩
  intro x
  constructor
  · exact fun hx => hcov x hx
  · rintro ⟨c, hc, hxc⟩
    exact hsub c hc x hxc

/-- Witness for C1 at the concrete graph `ccExample`. -/
theorem connected_components_cover_witness :
    ∃ comps, ccExample.connected_components = Res.ok comps ∧
      (∀ x, x ∈ ccExample.vertices ↔ ∃ c ∈ comps, x ∈ c.vertices) :=
  connected_components_cover ccExample (by decide)

/-- Counterexample for C1 as stated: on `ccExample` the computation
yields two components whose vertex sets overlap (the seed 2 produces
the component {2, 3}, and the later seed 1 re-traverses them to produce
{1, 2, 3}), so the component vertex sets are not pairwise disjoint. -/
theorem connected_components_not_disjoint :
    ccExample.connected_components = Res.ok ccExampleComps ∧
    ¬ (∀ c1 ∈ ccExampleComps, ∀ c2 ∈ ccExampleComps,
        c1 = c2 ∨ ∀ x ∈ c1.vertices, x ∉ c2.vertices) := by decide

/-- C3: for every graph satisfying the adjacency invariant and every live
vertex `v`, `remove_vertex v` succeeds and afterwards `get_vertex v` is
absent and, for every vertex `w`, both `get_edge (v, w)` and
`get_edge (w, v)` are absent. -/
theorem removal_cascade {V E : Type} (g : Graph V E) (v : VertexId)
    (hwf : GWF g) (hlive : (alookup g.arena v).isSome = true) :
    ∃ g', g.remove_vertex v = .ok g' ∧
      g'.get_vertex v = none ∧
      ∀ w, g'.get_edge (v, w) = none ∧ g'.get_edge (w, v) = none := by
  obtain ⟨hA, hB, hC, hD⟩ := hwf
  obtain ⟨p, hp⟩ := Option.isSome_iff_exists.mp hlive
  obtain ⟨hout', hin'⟩ := hD (v, p) (mem_of_alookup_some hp)
  obtain ⟨outs, hout⟩ := Option.isSome_iff_exists.mp hout'
  obtain ⟨ins0, hinv⟩ := Option.isSome_iff_exists.mp hin'
  have hin : ∀ t ∈ outs, (alookup g.inbound t).isSome = true := by
    intro t ht
    have hedge := hB (v, outs) (mem_of_alookup_some hout) t ht
    obtain ⟨w, hw⟩ := Option.isSome_iff_exists.mp hedge
    exact isSome_of_mem_getD (hA ((v, t), w) (mem_of_alookup_some hw)).2
  obtain ⟨g', hok, har, hob, hnid, hinb, hedges⟩ := remove_vertex_ok g v hout hinv hin
  refine ⟨g', hok, ?_, ?_⟩
  · unfold Graph.get_vertex
    rw [har, alookup_aerase_self]
  · intro w
    constructor
    · unfold Graph.get_edge
      rw [hedges (v, w)]
      by_cases hw1 : w ∈ outs
      · simp [hw1]
      · have hnone : alookup g.edges (v, w) = none := by
          cases he : alookup g.edges (v, w) with
          | none => rfl
          | some x =>
            have hm := (hA ((v, w), x) (mem_of_alookup_some he)).1
            rw [hout] at hm
            exact absurd hm hw1
        by_cases h2 : w = v ∧ v ∈ (if v ∈ outs then serase ins0 v else ins0) <;>
          simp [hw1, h2, hnone]
    · unfold Graph.get_edge
      rw [hedges (w, v)]
      cases he : alookup g.edges (w, v) with
      | none =>
        by_cases h1 : w = v ∧ v ∈ outs
        · simp [h1]
        · by_cases h2 : w ∈ (if v ∈ outs then serase ins0 v else ins0) <;>
            simp [h1, h2, he]
      | some x =>
        have hmemw := (hA ((w, v), x) (mem_of_alookup_some he)).2
        rw [hinv] at hmemw
        by_cases hwv : w = v
        · subst hwv
          have hvo : w ∈ outs := by
            have hm := (hA ((w, w), x) (mem_of_alookup_some he)).1
            rw [hout] at hm
            exact hm
          simp [hvo]
        · have h2 : w ∈ (if v ∈ outs then serase ins0 v else ins0) := by
            by_cases hvo : v ∈ outs
            · simp only [if_pos hvo]
              exact mem_serase.mpr ⟨hmemw, hwv⟩
            · simpa [hvo] using hmemw
          simp [h2]

/-- Witness for C3 at the concrete graph `c3g` and vertex 1. -/
theorem removal_cascade_witness :
    ∃ g', c3g.remove_vertex 1 = Res.ok g' ∧
      g'.get_vertex 1 = none ∧
      ∀ w, g'.get_edge (1, w) = none ∧ g'.get_edge (w, 1) = none :=
  removal_cascade c3g 1 (by decide) (by decide)

/-- C4: a concrete state produced by public operations on which
`adj_out` on a live vertex panics: after adding the edge (0, 1) and
removing vertex 1, identity 1 remains in `outbound[0]` while the edge
(0, 1) is gone, so `adj_out 0` hits the `unwrap` panic instead of
returning the remaining neighbors. -/
theorem adj_out_panics_after_remove_vertex :
    c4pre.remove_vertex 1 = Res.ok c4post ∧
    (alookup c4post.arena 0).isSome = true ∧
    1 ∈ (alookup c4post.outbound 0).getD [] ∧
    c4post.get_edge (0, 1) = none ∧
    c4post.adj_out 0 = Res.panicked := by decide

/-- C5: on the concrete graph with edges (A,B,1), (B,C,2), (A,C,10)
(payloads A,B,C rendered as 1,2,3), `dijkstra A C` returns the path
[A, B, C] with total cost 3, not the direct edge of cost 10. -/
theorem dijkstra_shortest_path_example :
    dijkstraExample.dijkstra 1 3 = Res.ok (some ([1, 2, 3], 3)) := by decide

/-- C7: immediately after `add_edge ((u, v), w)`, `v` is in
`outbound[u]`, `u` is in `inbound[v]`, and `get_edge (u, v)` returns the
inserted payload (overwriting any previous payload for that pair). -/
theorem add_edge_establishes_adjacency {V E : Type} (g : Graph V E)
    (u v : VertexId) (w : E) :
    v ∈ (alookup (g.add_edge (u, v) w).outbound u).getD [] ∧
    u ∈ (alookup (g.add_edge (u, v) w).inbound v).getD [] ∧
    (g.add_edge (u, v) w).get_edge (u, v) = some w := by
  refine ⟨?_, ?_, ?_⟩
  · rw [outbound_add_edge]
    simp [mem_sinsert]
  · rw [inbound_add_edge]
    simp [mem_sinsert]
  · rw [get_edge_add_edge]
    simp

/-- C8: `Graph::indegree`/`Graph::outdegree` return 0 when the identity
has no adjacency entry, whereas `GraphMap::indegree`/`GraphMap::outdegree`
panic when the payload is not in the content index. -/
theorem degree_query_unknown_key {V E : Type} [DecidableEq V] :
    (∀ (g : Graph V E) (v : VertexId), alookup g.inbound v = none → g.indegree v = 0) ∧
    (∀ (g : Graph V E) (v : VertexId), alookup g.outbound v = none → g.outdegree v = 0) ∧
    (∀ (gm : GraphMap V E) (p : V), alookup gm.map p = none →
      gm.indegree p = Res.panicked ∧ gm.outdegree p = Res.panicked) := by
  refine ⟨?_, ?_, ?_⟩
  · intro g v h
    unfold Graph.indegree
    rw [h]
  · intro g v h
    unfold Graph.outdegree
    rw [h]
  · intro gm p h
    constructor
    · unfold GraphMap.indegree
      rw [h]
    · unfold GraphMap.outdegree
      rw [h]

/-- Witness for C8: the empty graphs at concrete unknown keys. -/
theorem degree_query_unknown_key_witness :
    (Graph.new Nat Nat).indegree 5 = 0 ∧
    (Graph.new Nat Nat).outdegree 5 = 0 ∧
    (GraphMap.new Nat Nat).indegree 7 = Res.panicked ∧
    (GraphMap.new Nat Nat).outdegree 7 = Res.panicked := by
  refine ⟨?_, ?_, ?_, ?_⟩
  · exact (@degree_query_unknown_key Nat Nat _).1 (Graph.new Nat Nat) 5 rfl
  · exact (@degree_query_unknown_key Nat Nat _).2.1 (Graph.new Nat Nat) 5 rfl
  · exact ((@degree_query_unknown_key Nat Nat _).2.2 (GraphMap.new Nat Nat) 7 rfl).1
  · exact ((@degree_query_unknown_key Nat Nat _).2.2 (GraphMap.new Nat Nat) 7 rfl).2

/-- C10: a second `GraphMap::add_vertex` with the same payload is a
no-op: the state is unchanged, `vertex_count` is unchanged, and the
payload still resolves to the same identity (as `add_or_get_vertex`
returns it). -/
theorem add_vertex_idempotent {V E : Type} [DecidableEq V] (g : GraphMap V E) (p : V) :
    (g.add_vertex p).add_vertex p = g.add_vertex p ∧
    ((g.add_vertex p).add_vertex p).vertex_count = (g.add_vertex p).vertex_count ∧
    ∃ id, alookup (g.add_vertex p).map p = some id ∧
      (g.add_vertex p).add_or_get_vertex p = (id, g.add_vertex p) := by
  obtain ⟨id, hid⟩ := add_vertex_map_lookup g p
  have hnoop := add_vertex_already (g.add_vertex p) p id hid
  exact ⟨hnoop, by rw [hnoop], id, hid, add_or_get_already (g.add_vertex p) p id hid⟩

end GraphRs
